import Mathlib

/-!
# jitaScan: contract monitoring pipeline

A shallow embedding of the Go sources (`types.go`, `db.go`, `eve.go`, `main.go`).

Conventions of the embedding:

* Go `int64`/`int32`/`int` values are `Int`; where the source multiplies two `int32`
  values the result is wrapped to 32 bits with `wrapInt32`.
* Go `float64` values are IEEE 754 binary64 values (`float64` below): every sum, product
  and quotient is rounded to nearest, ties to even, each operation on its own.
* Go `map[int64]registryItem` is a function `Int → Option registryItem`
  (`registry[k]` with the comma-ok form is the application `registry k`).
* Channels are the lists of the values sent on them, in order.
* An HTTP client is a function from the request to its result; a `sync.Map` of
  revalidation tokens is a function from keys to optional tokens, returned updated.
* Go strings handed to `strings.Fields` are sequences of Unicode characters.
* Loops that poll an endpoint until it reports `io.EOF` take a fuel argument.
-/

namespace JitaScan

/-! ## Go `float64`: IEEE 754 binary64 arithmetic -/

/-- A Go `float64`: NaN, an infinity with its sign, or the finite value
`m * 2 ^ k / 2 ^ 1074`. The sign of a zero is not kept: the source never divides by a
variable, so it cannot be observed. -/
inductive float64 where
  | nan
  | inf (negative : Bool)
  | fin (m : Int) (k : Nat)
deriving DecidableEq, Repr

/-- The reciprocal `2 ^ 1074` of the smallest positive `float64`. -/
@[irreducible] def float64.scale : ℚ := 2 ^ 1074

/-- The smallest magnitude, in units of `2 ^ -1074`, that no finite `float64` reaches:
`2 ^ 1024 * 2 ^ 1074`. -/
@[irreducible] def float64.overflowBound : Int := 2 ^ 2098

/-- The rational value of a finite `float64` (0 for NaN and the infinities). -/
def float64.toRat : float64 → ℚ
  | .fin m k => (m : ℚ) * 2 ^ k / float64.scale
  | _ => 0

/-- Rounding of a rational to the nearest integer, ties to the even one. -/
def float64.roundHalfEven (q : ℚ) : Int :=
  if q - ⌊q⌋ < 1 / 2 then ⌊q⌋
  else if 1 / 2 < q - ⌊q⌋ then ⌊q⌋ + 1
  else if ⌊q⌋ % 2 = 0 then ⌊q⌋ else ⌊q⌋ + 1

/-- The number of halvings that bring `n` below 2, within `fuel` steps. -/
def float64.log2Fuel : Nat → Nat → Nat
  | 0, _ => 0
  | fuel + 1, n => if n < 2 then 0 else float64.log2Fuel fuel (n / 2) + 1

/-- The binary logarithm of a natural number, rounded down (0 for 0). -/
def float64.natLog2 (n : Nat) : Nat := float64.log2Fuel n n

/-- The exponent `k` of the binary64 grid around `q`: the spacing of the representable
values near `q` is `2 ^ k / 2 ^ 1074`, so that a mantissa has at most 53 bits, and `k = 0`
in the subnormal range. -/
def float64.expo (q : ℚ) : Nat :=
  float64.natLog2 ⌊|q| * float64.scale * 2 ^ 52⌋₊ - 104

/-- The rational `q` rounded to the grid around it, in units of `2 ^ -1074`. -/
def float64.scaled (q : ℚ) : Int :=
  float64.roundHalfEven (q * float64.scale / 2 ^ float64.expo q) * 2 ^ float64.expo q

/-- Rounding of a rational to `float64`: to nearest, ties to even, overflow to an
infinity. -/
def float64.ofRat (q : ℚ) : float64 :=
  if float64.overflowBound ≤ |float64.scaled q| then .inf (decide (q < 0))
  else .fin (float64.roundHalfEven (q * float64.scale / 2 ^ float64.expo q)) (float64.expo q)

/-- The conversion `float64(z)` of an integer. -/
def float64.ofInt (z : Int) : float64 := float64.ofRat z

/-- The `float64` zero. -/
def float64.zero : float64 := .fin 0 0

/-- Negation. -/
def float64.neg : float64 → float64
  | .nan => .nan
  | .inf s => .inf (!s)
  | .fin m k => .fin (-m) k

/-- The Go operator `+` on `float64`. -/
def float64.add : float64 → float64 → float64
  | .fin m1 k1, .fin m2 k2 =>
    float64.ofRat (float64.toRat (.fin m1 k1) + float64.toRat (.fin m2 k2))
  | .fin _ _, .inf s => .inf s
  | .inf s, .fin _ _ => .inf s
  | .inf s1, .inf s2 => if s1 = s2 then .inf s1 else .nan
  | _, _ => .nan

/-- The Go operator `-` on `float64`. -/
def float64.sub (x y : float64) : float64 := float64.add x (float64.neg y)

/-- The Go operator `*` on `float64`. -/
def float64.mul : float64 → float64 → float64
  | .fin m1 k1, .fin m2 k2 =>
    float64.ofRat (float64.toRat (.fin m1 k1) * float64.toRat (.fin m2 k2))
  | .fin m _, .inf s => if m = 0 then .nan else .inf (xor s (decide (m < 0)))
  | .inf s, .fin m _ => if m = 0 then .nan else .inf (xor s (decide (m < 0)))
  | .inf s1, .inf s2 => .inf (xor s1 s2)
  | _, _ => .nan

/-- The Go operator `/` on `float64`; a zero divisor is taken as `+0` (the source divides
by the constant `1000000` only). -/
def float64.div : float64 → float64 → float64
  | .fin m1 k1, .fin m2 k2 =>
    if m2 = 0 then (if m1 = 0 then .nan else .inf (decide (m1 < 0)))
    else float64.ofRat (float64.toRat (.fin m1 k1) / float64.toRat (.fin m2 k2))
  | .fin _ _, .inf _ => float64.zero
  | .inf s, .fin m _ => .inf (xor s (decide (m < 0)))
  | _, _ => .nan

/-- The Go operator `<` on `float64` (false when an operand is NaN). -/
def float64.lt : float64 → float64 → Bool
  | .fin m1 k1, .fin m2 k2 => decide (m1 * 2 ^ k1 < m2 * 2 ^ k2)
  | .fin _ _, .inf s => !s
  | .inf s, .fin _ _ => s
  | .inf s1, .inf s2 => s1 && !s2
  | _, _ => false

/-- The Go operator `<=` on `float64` (false when an operand is NaN). -/
def float64.le : float64 → float64 → Bool
  | .fin m1 k1, .fin m2 k2 => decide (m1 * 2 ^ k1 ≤ m2 * 2 ^ k2)
  | .fin _ _, .inf s => !s
  | .inf s, .fin _ _ => s
  | .inf s1, .inf s2 => s1 || !s2
  | _, _ => false

/-- Neither NaN nor an infinity. -/
def float64.isFinite : float64 → Bool
  | .fin _ _ => true
  | _ => false

/-- Not NaN and not negative: `+Inf` or a finite value with a non-negative mantissa. -/
def float64.nonnegF (x : float64) : Prop := x = .inf false ∨ ∃ m k, x = .fin m k ∧ 0 ≤ m

/-- Positive: `+Inf` or a finite value with a positive mantissa. -/
def float64.posF (x : float64) : Prop := x = .inf false ∨ ∃ m k, x = .fin m k ∧ 0 < m

/-- The first value is NaN, or the second is, or the second is at most the first. -/
def float64.dominates (x y : float64) : Prop :=
  x = .nan ∨ y = .nan ∨ float64.le y x = true

/-! ## types.go -/

/-- The struct `contract` of `types.go`; timestamps are integers. -/
structure contract where
  Id : Int
  Buyout : float64
  Collateral : float64
  Price : float64
  DateExpired : Int
  DateIssued : Int
  ForCorporation : Bool
  IssuerCorporationId : Int
  Title : String
  ContractType : String
  Volume : float64
deriving DecidableEq, Repr

/-- The struct `contractItem` of `types.go`. -/
structure contractItem where
  RecordId : Int
  IsBlueprintCopy : Bool
  IsIncluded : Bool
  MaterialEfficiency : Int
  TimeEfficiency : Int
  Runs : Int
  Quantity : Int
  TypeId : Int
deriving DecidableEq, Repr

/-- The struct `registrySignal` of `types.go`. -/
structure registrySignal where
  contract : contract
  items : List contractItem
deriving DecidableEq, Repr

/-- The struct `registryItem` of `types.go`. -/
structure registryItem where
  TypeId : Int
  Price : float64
  TypeName : String
deriving DecidableEq, Repr

/-- The constant `itemExchange` of `types.go`. -/
def itemExchange : String := "item_exchange"

/-- The function `isPublicItemExchangeContract` of `types.go`. -/
def isPublicItemExchangeContract (c : contract) : Bool :=
  !c.ForCorporation && c.ContractType == itemExchange

/-! ## Machine integers -/

/-- Two's complement wrap-around of an integer to 32 bits (Go `int32` arithmetic). -/
def wrapInt32 (x : Int) : Int := (x + 2147483648) % 4294967296 - 2147483648

/-- The constant `math.MaxInt16`. -/
def maxInt16 : Int := 32767

/-! ## eve.go: checkSuitable -/

/-- The value of the local `r` in `checkSuitable`: `item.Runs`, replaced by
`math.MaxInt16` when negative. -/
def effectiveRuns (runs : Int) : Int := if runs < 0 then maxInt16 else runs

/-- The constant `1000000` of `contract.Price/1000000`, converted to `float64`. -/
def million : float64 := float64.ofInt 1000000

/-- The constant `0.001` of `checkSuitable`, converted to `float64`. -/
def thousandth : float64 := float64.ofRat (1 / 1000)

/-- The statement `contractBound += curr.Price * float64(r*item.Quantity)` under its
guard `if curr, ok := registry[item.TypeId]; ok`: the new value of `contractBound`. -/
def accumulate (registry : Int → Option registryItem) (item : contractItem)
    (contractBound : float64) : float64 :=
  match registry item.TypeId with
  | some curr =>
    float64.add contractBound
      (float64.mul curr.Price
        (float64.ofInt (wrapInt32 (effectiveRuns item.Runs * item.Quantity))))
  | none => contractBound

/-- The `for _, item := range items` loop of `checkSuitable`, with its `break`: returns
the final values of `excluded` and `contractBound`. -/
def checkSuitableLoop (registry : Int → Option registryItem) :
    List contractItem → Bool → float64 → Bool × float64
  | [], excluded, contractBound => (excluded, contractBound)
  | item :: rest, excluded, contractBound =>
    if !item.IsIncluded then (true, accumulate registry item contractBound)
    else checkSuitableLoop registry rest excluded (accumulate registry item contractBound)

/-- The function `checkSuitable` of `eve.go`. -/
def checkSuitable (registry : Int → Option registryItem) (c : contract)
    (items : List contractItem) : Bool :=
  let r := checkSuitableLoop registry items false float64.zero
  !r.1 && float64.lt float64.zero r.2 &&
    float64.lt (float64.sub (float64.div c.Price million) r.2) thousandth

/-- The reference value in the words of the specification, arithmetic taken exactly: the
sum, over the line items whose item-type id is in the watch-list, of
`watch_price × effective_runs × quantity`, the integer product taken mathematically (no
wrap-around) and the prices at their rational values. -/
def referenceValue (registry : Int → Option registryItem) (items : List contractItem) : ℚ :=
  (items.map (fun item =>
    match registry item.TypeId with
    | some curr =>
      curr.Price.toRat * ((effectiveRuns item.Runs * item.Quantity : Int) : ℚ)
    | none => 0)).sum

/-- The reference value in the words of the specification, arithmetic taken in `float64`:
starting from 0, for each line item in list order whose item-type id is in the watch-list,
`watch_price × effective_runs × quantity` is added, the integer product taken
mathematically (no wrap-around). -/
def referenceValue64 (registry : Int → Option registryItem) :
    List contractItem → float64 → float64
  | [], value => value
  | item :: rest, value =>
    referenceValue64 registry rest
      (match registry item.TypeId with
       | some curr =>
         float64.add value
           (float64.mul curr.Price (float64.ofInt (effectiveRuns item.Runs * item.Quantity)))
       | none => value)

/-! ## db.go: the dedup store -/

/-- Modelled from the spec: the table `contracts` of the external `go-memdb` store, with
its unique integer index on the field `Id`, is the list of its rows; `txnFirst` is the
index lookup `txn.First(tableContracts, "id", id)`. -/
def txnFirst (db : List contract) (id : Int) : Option contract :=
  db.find? (fun row => row.Id == id)

/-- Modelled from the spec: `txn.Insert(tableContracts, contract)` followed by
`txn.Commit()` on the external `go-memdb` store; the unique index on `Id` means that a
row with the same id is replaced. -/
def txnInsert (db : List contract) (c : contract) : List contract :=
  db.filter (fun row => row.Id != c.Id) ++ [c]

/-- The function `isExistsContractCheckDB` of `db.go`. -/
def isExistsContractCheckDB (db : List contract) (c : contract) : Bool :=
  (txnFirst db c.Id).isSome

/-- The function `isNewlyCreatedContractCheckDB` of `db.go`: the result `inserted` and
the store after the call. -/
def isNewlyCreatedContractCheckDB (db : List contract) (c : contract) :
    Bool × List contract :=
  if isExistsContractCheckDB db c then (false, db) else (true, txnInsert db c)

/-! ## eve.go: the paginated client, the producer and the evaluator -/

/-- A Go `error` value as the callers of the client see it: `io.EOF`, which they compare
against with `==`, or any other error with its message. -/
inductive GoError where
  | EOF
  | other (msg : String)
deriving DecidableEq, Repr

/-- The struct `eveConnector` as its callers use it: the results `(data, err)` of the
methods `getContracts(regionId, page)` and `getContractItems(contractId, page)`. Both
methods return `nil` data together with a non-nil error, so a result is either the data
or the error. -/
structure eveConnector where
  getContracts : String → Nat → Except GoError (List contract)
  getContractItems : Int → Nat → Except GoError (List contractItem)

/-- What `loadAllContracts` does that another unit can observe, in program order. -/
inductive producerEvent where
  | fetch (page : Nat)
  | sendErr (err : GoError)
  | backoff
  | sendContract (c : contract)
  | closed
deriving DecidableEq, Repr

/-- The `for` loop of `loadAllContracts` from the given value of `page`, run for at most
`fuel` iterations. The event `closed` (the deferred `close(errCh)` and `close(conCh)`)
ends the trace exactly when the loop has left through `break`. -/
def loadAllContractsFrom (eve : eveConnector) (regionId : String) :
    Nat → Nat → List producerEvent
  | 0, _ => []
  | fuel + 1, page =>
    match eve.getContracts regionId page with
    | .error .EOF => [.fetch page, .closed]
    | .error err =>
      .fetch page :: .sendErr err :: .backoff ::
        loadAllContractsFrom eve regionId fuel (page + 1)
    | .ok data =>
      .fetch page :: (data.map producerEvent.sendContract ++
        loadAllContractsFrom eve regionId fuel (page + 1))

/-- The function `loadAllContracts` of `eve.go` (`var page = 1`). -/
def loadAllContracts (eve : eveConnector) (regionId : String) (fuel : Nat) :
    List producerEvent :=
  loadAllContractsFrom eve regionId fuel 1

/-- The pages requested in a trace of the producer, in order. -/
def requestedPages : List producerEvent → List Nat
  | [] => []
  | .fetch page :: rest => page :: requestedPages rest
  | _ :: rest => requestedPages rest

/-- The `for` loop of `loadContractItems` from the given `page` and `items`, run for at
most `fuel` iterations: `none` when the fuel runs out, else the returned pair. -/
def loadContractItemsFrom (eve : eveConnector) (contractId : Int) :
    Nat → Nat → List contractItem → Option (List contractItem × Option GoError)
  | 0, _, _ => none
  | fuel + 1, page, items =>
    match eve.getContractItems contractId page with
    | .error .EOF => some (items, none)
    | .error err => some (items, some err)
    | .ok i => loadContractItemsFrom eve contractId fuel (page + 1) (items ++ i)

/-- The function `loadContractItems` of `eve.go` (`page = 1`, `items` empty). -/
def loadContractItems (eve : eveConnector) (contractId : Int) (fuel : Nat) :
    Option (List contractItem × Option GoError) :=
  loadContractItemsFrom eve contractId fuel 1 []

/-- The function `monCheckContract` of `eve.go`: the signals it sends on `chSignal`
(`none` when the line-item loop runs out of fuel). -/
def monCheckContract (c : contract) (eve : eveConnector)
    (registry : Int → Option registryItem) (fuel : Nat) : Option (List registrySignal) :=
  match loadContractItems eve c.Id fuel with
  | none => none
  | some (_, some _) => some []
  | some (items, none) =>
    if checkSuitable registry c items then some [{ contract := c, items := items }]
    else some []

/-- The data of the `n` line-item pages `page, page + 1, ...` of a listing, concatenated
in page order (a page whose fetch failed has no data). -/
def pagesConcatFrom (eve : eveConnector) (contractId : Int) : Nat → Nat → List contractItem
  | _, 0 => []
  | page, n + 1 =>
    (match eve.getContractItems contractId page with
     | .ok i => i
     | .error _ => []) ++ pagesConcatFrom eve contractId (page + 1) n

/-- The data of the line-item pages `1, ..., n` of a listing, concatenated in page
order. -/
def pagesConcat (eve : eveConnector) (contractId : Int) (n : Nat) : List contractItem :=
  pagesConcatFrom eve contractId 1 n

/-! ## main.go: the evaluation loop and the alert dispatcher -/

/-- The state the evaluation loop of `monitorTick` works on: the dedup store
`state.monitoring.db`, the arguments of the calls of `monCheckContract` so far, and the
signals sent on `chSignal` so far. -/
structure monitorState where
  db : List contract
  checked : List contract
  chSignal : List registrySignal
deriving DecidableEq, Repr

/-- The loop `for contract := range conCh` of `monitorTick` over the listings delivered
on `conCh`; `mon c` is what the call `monCheckContract(contract, ...)` sends on
`chSignal`. -/
def monitorTickLoop (mon : contract → List registrySignal) (checkContract : Bool) :
    List contract → monitorState → monitorState
  | [], st => st
  | c :: rest, st =>
    if isPublicItemExchangeContract c then
      let r := isNewlyCreatedContractCheckDB st.db c
      if r.1 && checkContract then
        monitorTickLoop mon checkContract rest
          { db := r.2, checked := st.checked ++ [c], chSignal := st.chSignal ++ mon c }
      else
        monitorTickLoop mon checkContract rest { st with db := r.2 }
    else
      monitorTickLoop mon checkContract rest st

/-- Successive calls of `monitorTick` on one `state.monitoring.db`, as the `for` loop of
`startMonitoring` makes them: each cycle has its `checkContract` flag and the listings
delivered to it. -/
def monitorTicks (mon : contract → List registrySignal) :
    List (Bool × List contract) → monitorState → monitorState
  | [], st => st
  | cycle :: rest, st => monitorTicks mon rest (monitorTickLoop mon cycle.1 cycle.2 st)

/-- The `for` loop of `startMonitoring` over the listings delivered in each polling cycle:
the first call of `monitorTick` has `checkContracts = false`, every later one `true`;
the dedup store starts as `db`. -/
def startMonitoringLoop (mon : contract → List registrySignal)
    (ticks : List (List contract)) (db : List contract) : monitorState :=
  match ticks with
  | [] => { db := db, checked := [], chSignal := [] }
  | first :: later =>
    monitorTicks mon ((false, first) :: later.map (fun conCh => (true, conCh)))
      { db := db, checked := [], chSignal := [] }

/-- The Go constant `time.Second`, in nanoseconds. -/
def second : Int := 1000000000

/-- The loop `for sig := range chSignal` of `alerter`: every signal comes with the value
of `time.Now()` at the test `lastTime.Add(time.Second * 20).Before(time.Now())`; the
result is the list of the times at which `warning()` is called. The writes to `w` are
left out. The source never assigns `lastTime` in the loop. -/
def alerterLoop (lastTime : Int) : List (Int × registrySignal) → List Int
  | [] => []
  | (now, _) :: rest =>
    if lastTime + second * 20 < now then now :: alerterLoop lastTime rest
    else alerterLoop lastTime rest

/-- The function `alerter` of `main.go`; `start` is the value of `time.Now()` at
`var lastTime = time.Now()`. -/
def alerter (start : Int) (chSignal : List (Int × registrySignal)) : List Int :=
  alerterLoop start chSignal

/-- Any two calls of the notification are at least 20 seconds apart: the times in the
list are in order and neighbours differ by at least `20 * second`. -/
def cooldownRespected : List Int → Bool
  | [] => true
  | [_] => true
  | t1 :: t2 :: rest => decide (t1 + second * 20 ≤ t2) && cooldownRespected (t2 :: rest)

/-! ## eve.go: the paginated API client -/

/-- The constant `host` of `eve.go`. -/
def host : String := "esi.evetech.net"

/-- The constant `eveServer` of `eve.go`. -/
def eveServer : String := "tranquility"

/-- The constant `apiContracts` of `eve.go`. -/
def apiContracts : String := "/latest/contracts/public/"

/-- The constant `apiContractItems` of `eve.go`. -/
def apiContractItems : String := "/latest/contracts/public/items/"

/-- The request that `executeQuery` builds and passes to `client.Do`: the parts of
`newUrl`, its two query parameters, and the value of the header `If-None-Match`. -/
structure httpRequest where
  Method : String
  Scheme : String
  Host : String
  Path : String
  datasource : String
  page : Int
  ifNoneMatch : String
deriving DecidableEq, Repr

/-- The parts of an `http.Response` that `executeQuery` reads: `StatusCode`, `Status`,
the result of `resp.Header.Get("etag")`, and the body. -/
structure httpResponse where
  StatusCode : Int
  Status : String
  etag : String
  Body : String
deriving DecidableEq, Repr

/-- The function `checkResponse` of `eve.go`; `none` is the `nil` error. -/
def checkResponse (resp : httpResponse) : Option GoError :=
  if resp.StatusCode = 404 then some .EOF
  else if resp.StatusCode ≥ 400 then some (.other resp.Status)
  else none

/-- A `sync.Map` holding revalidation tokens: string keys to string values. -/
abbrev eTagsMap : Type := String → Option String

/-- The method `Store` of `sync.Map`. -/
def eTagsMap.store (m : eTagsMap) (key value : String) : eTagsMap :=
  fun k => if k = key then some value else m k

/-- Modelled from the spec: the decimal digits of a natural number as `fmt.Sprintf`
writes them under `%d`. -/
def formatNat (n : Nat) : List Char :=
  if n = 0 then [Char.ofNat 48]
  else (Nat.digits 10 n).reverse.map (fun d => Char.ofNat (48 + d))

/-- Modelled from the spec: the text that `fmt.Sprintf` writes for an `int` under `%d`:
a minus sign for a negative number, then the decimal digits. -/
def formatInt (z : Int) : List Char :=
  if z < 0 then Char.ofNat 45 :: formatNat z.natAbs else formatNat z.toNat

/-- The local `key` of `executeQuery`: `fmt.Sprintf("%s%s?%d", path, itemId, page)`. -/
def queryKey (path itemId : String) (page : Int) : String :=
  String.mk (path.data ++ itemId.data ++ Char.ofNat 63 :: formatInt page)

/-- The request built by `executeQuery` for the given value of `etag`. -/
def newRequest (path itemId : String) (page : Int) (etag : String) : httpRequest :=
  { Method := "GET", Scheme := "https", Host := host, Path := path ++ itemId,
    datasource := eveServer, page := page, ifNoneMatch := etag }

/-- What a call of `executeQuery` leaves behind: the request passed to `client.Do` (if the
call got that far), the returned error (`none` is `nil`), the value decoded into `data`
(`none` when nothing was decoded), and the maps behind the pointers `eTagsA` after the
call. -/
structure queryResult (α : Type) where
  sent : Option httpRequest
  err : Option GoError
  data : Option α
  eTagsA : List (Option eTagsMap)

/-- The local `etag` of `executeQuery` once the variadic argument has been read: the
token stored under `key` in `eTagsA[0]`, or the empty string. -/
def loadETag (eTagsA : List (Option eTagsMap)) (key : String) : String :=
  match eTagsA.head? with
  | some (some m) => (m key).getD ""
  | _ => ""

/-- The function `executeQuery` of `eve.go`. The variadic `eTagsA ...*sync.Map` is a
list of optional maps (`none` is a `nil` pointer); `client` is `client.Do` and `decode`
is the JSON decoding of the body into `data`. -/
def executeQuery {α : Type} (client : httpRequest → Except GoError httpResponse)
    (decode : String → Except GoError α) (path itemId : String) (page : Int)
    (eTagsA : List (Option eTagsMap)) : queryResult α :=
  let key := queryKey path itemId page
  if eTagsA.length > 0 ∧ eTagsA.length ≠ 1 then
    { sent := none, err := some (.other "only one eTags argument expected"), data := none,
      eTagsA := eTagsA }
  else
    let req := newRequest path itemId page (loadETag eTagsA key)
    match client req with
    | .error err => { sent := some req, err := some err, data := none, eTagsA := eTagsA }
    | .ok resp =>
      match checkResponse resp with
      | some err => { sent := some req, err := some err, data := none, eTagsA := eTagsA }
      | none =>
        if resp.StatusCode = 200 then
          let stored : List (Option eTagsMap) :=
            match eTagsA.head? with
            | some (some m) => [some (m.store key resp.etag)]
            | _ => eTagsA
          match decode resp.Body with
          | .ok v => { sent := some req, err := none, data := some v, eTagsA := stored }
          | .error err => { sent := some req, err := some err, data := none, eTagsA := stored }
        else
          { sent := some req, err := none, data := none, eTagsA := eTagsA }

/-- One call of `executeQuery` on the shared map `eTags`, as `getContracts` and
`getContractItems` make them: its client, endpoint path, resource id and page. -/
structure queryCall where
  client : httpRequest → Except GoError httpResponse
  path : String
  itemId : String
  page : Int

/-- The maps behind `eTagsA` after a sequence of calls of `executeQuery` that all receive
the same `eTagsA`, in order (what a call decodes does not touch the maps). -/
def executeQueries : List queryCall → List (Option eTagsMap) → List (Option eTagsMap)
  | [], eTagsA => eTagsA
  | call :: rest, eTagsA =>
    executeQueries rest
      (executeQuery call.client (fun _ => Except.ok ()) call.path call.itemId call.page
        eTagsA).eTagsA

/-! ## eve.go: getItemTypeFromString

Go strings are read as sequences of Unicode characters (valid UTF-8). -/

/-- The struct `itemType` of `types.go`. -/
structure itemType where
  typeId : Int
  typeName : String
deriving DecidableEq, Repr

/-- Modelled from the spec: white space as the Go library functions `strings.Fields` and
`strings.TrimSpace` see it (`unicode.IsSpace`): tab, line feed, vertical tab, form feed,
carriage return, space, U+0085, U+00A0 and the other characters with the Unicode
property White_Space. -/
def isSpace (c : Char) : Bool :=
  (9 ≤ c.toNat && c.toNat ≤ 13) || c.toNat = 32 || c.toNat = 0x85 || c.toNat = 0xA0 ||
    c.toNat = 0x1680 || (0x2000 ≤ c.toNat && c.toNat ≤ 0x200A) || c.toNat = 0x2028 ||
    c.toNat = 0x2029 || c.toNat = 0x202F || c.toNat = 0x205F || c.toNat = 0x3000

/-- The scan of `strings.Fields`: `cur` is the field being read. -/
def fieldsFrom : List Char → List Char → List (List Char)
  | [], cur => if cur = [] then [] else [cur]
  | c :: cs, cur =>
    if isSpace c then
      if cur = [] then fieldsFrom cs [] else cur :: fieldsFrom cs []
    else fieldsFrom cs (cur ++ [c])

/-- Modelled from the spec: the Go library function `strings.Fields`, which splits a line
around each run of white space into its whitespace-separated fields. -/
def fields (s : List Char) : List (List Char) := fieldsFrom s []

/-- Modelled from the spec: the Go library function `strings.Join`. -/
def join : List (List Char) → List Char → List Char
  | [], _ => []
  | [a], _ => a
  | a :: b :: rest, sep => a ++ sep ++ join (b :: rest) sep

/-- Modelled from the spec: the Go library function `strings.TrimSpace`, which removes
leading and trailing white space. -/
def trimSpace (s : List Char) : List Char :=
  (s.dropWhile isSpace).rdropWhile isSpace

/-- The value of a decimal digit, `none` for any other character. -/
def digitValue (c : Char) : Option Nat :=
  if 48 ≤ c.toNat ∧ c.toNat ≤ 57 then some (c.toNat - 48) else none

/-- The digit loop of `strconv.ParseUint` in base 10 from the value `n` read so far. -/
def parseDigits : List Char → Nat → Option Nat
  | [], n => some n
  | c :: cs, n =>
    match digitValue c with
    | some d => parseDigits cs (n * 10 + d)
    | none => none

/-- The unsigned part of `strconv.ParseInt`: at least one character, all decimal
digits. -/
def parseUint : List Char → Option Nat
  | [] => none
  | c :: cs => parseDigits (c :: cs) 0

/-- Modelled from the spec: the Go library call `strconv.ParseInt(s, 10, 64)`: an optional
sign `+` or `-`, then decimal digits, with a value from `-2^63` to `2^63 - 1`; `none`
stands for any non-nil error. -/
def parseInt (s : List Char) : Option Int :=
  match s with
  | [] => none
  | c :: rest =>
    if c.toNat = 43 then
      (parseUint rest).bind (fun un => if un < 9223372036854775808 then some (un : Int) else none)
    else if c.toNat = 45 then
      (parseUint rest).bind (fun un => if un ≤ 9223372036854775808 then some (-(un : Int)) else none)
    else
      (parseUint (c :: rest)).bind
        (fun un => if un < 9223372036854775808 then some (un : Int) else none)

/-- The function `getItemTypeFromString` of `eve.go`: the results `i` and `err` (`none`
is `nil`). The message of the error of `strconv.ParseInt` is not modelled. -/
def getItemTypeFromString (s : String) : itemType × Option GoError :=
  match fields s.data with
  | f0 :: rest =>
    match parseInt f0 with
    | some id =>
      ({ typeId := id, typeName := String.mk (trimSpace (join rest [Char.ofNat 32])) }, none)
    | none => ({ typeId := 0, typeName := "" }, some (.other "strconv.ParseInt: parsing"))
  | [] => ({ typeId := 0, typeName := "" }, some (.other "format error"))

/-- The value of a sequence of decimal digits. -/
def decimalValue (digits : List Char) : Nat :=
  digits.foldl (fun n c => n * 10 + (c.toNat - 48)) 0

/-- A valid base-10 signed 64-bit integer in the words of the specification: an optional
sign, at least one decimal digit and nothing else, the value `z` inside the signed 64-bit
range. -/
def isInt64Literal (f : List Char) (z : Int) : Prop :=
  ∃ sign digits : List Char, f = sign ++ digits ∧
    (sign = [] ∨ sign = [Char.ofNat 43] ∨ sign = [Char.ofNat 45]) ∧
    digits ≠ [] ∧ (∀ c ∈ digits, 48 ≤ c.toNat ∧ c.toNat ≤ 57) ∧
    z = (if sign = [Char.ofNat 45] then -(decimalValue digits : Int)
      else (decimalValue digits : Int)) ∧
    -9223372036854775808 ≤ z ∧ z < 9223372036854775808

/-! ## Fixtures of `main_test.go` -/

/-- A contract with the given id, price and type, not for a corporation, titled `Test`
(the shape of the contracts in `Test_checkSuitable`). -/
def testContract (id : Int) (price : ℚ) (type : String) : contract :=
  { Id := id, Buyout := float64.zero, Collateral := float64.zero,
    Price := float64.ofRat price, DateExpired := 0, DateIssued := 0,
    ForCorporation := false, IssuerCorporationId := 0, Title := "Test",
    ContractType := type, Volume := float64.zero }

/-- A blueprint-copy line item as the cases of `Test_checkSuitable` build them. -/
def testItem (recordId : Int) (isIncluded : Bool) (runs quantity typeId : Int) :
    contractItem :=
  { RecordId := recordId, IsBlueprintCopy := true, IsIncluded := isIncluded,
    MaterialEfficiency := 0, TimeEfficiency := 0, Runs := runs, Quantity := quantity,
    TypeId := typeId }

/-- The registry of `Test_checkSuitable`: `123 → 40.99` and `321 → 899.50`. -/
def testRegistry : Int → Option registryItem := fun typeId =>
  if typeId = 123 then
    some { TypeId := 123, Price := float64.ofRat (4099 / 100), TypeName := "Foo" }
  else if typeId = 321 then
    some { TypeId := 321, Price := float64.ofRat (1799 / 2), TypeName := "Bar" }
  else none

/-- A registry with the single entry `123 → price`, the price rounded to `float64` as a
Go constant is. -/
def priceRegistry (price : ℚ) : Int → Option registryItem := fun typeId =>
  if typeId = 123 then
    some { TypeId := 123, Price := float64.ofRat price, TypeName := "Foo" }
  else none

/-- A registry with the single entry `123 → 1`. -/
def unitRegistry : Int → Option registryItem := priceRegistry 1

/-- A connector whose line-item endpoint has two pages of data for every listing and
reports `io.EOF` on page 3, and whose listings endpoint is exhausted at once. -/
def testEve : eveConnector :=
  { getContracts := fun _ _ => .error .EOF,
    getContractItems := fun _ page =>
      if page = 1 then .ok [testItem 2 true (-1) 2 123]
      else if page = 2 then .ok [testItem 3 true 2 1 321]
      else .error .EOF }

/-- A connector whose listings endpoint has one listing on page 1, fails with
`502 Bad Gateway` on page 2 and reports `io.EOF` from page 3 on. -/
def flakyEve : eveConnector :=
  { getContracts := fun _ page =>
      if page = 1 then .ok [testContract 144 5 itemExchange]
      else if page = 2 then .error (.other "502 Bad Gateway") else .error .EOF,
    getContractItems := fun _ _ => .error .EOF }

/-- The contract of the case `with original` of `Test_checkSuitable`. -/
def originalContract : contract := testContract 144 18900000000 itemExchange

/-- The signal that `monCheckContract` sends for `originalContract` on `testEve`: the
contract with the line items of the case `with original`. -/
def originalSignal : registrySignal :=
  { contract := originalContract,
    items := [testItem 2 true (-1) 2 123, testItem 3 true 2 1 321] }

/-- A match signal as `Test_alerter` builds it, for the listing with the given id. -/
def testSignal (id : Int) : registrySignal :=
  { contract := testContract id 0 itemExchange, items := [testItem 1 true 1 1 123] }

/-- A response as the cases of `Test_checkResponse` build it: the status code, with
its decimal form as status text; no token, empty body. -/
def testResponse (code : Int) : httpResponse :=
  { StatusCode := code, Status := toString code, etag := "", Body := "" }

/-- A response with status 200 that carries the revalidation token `v1` and the body of
the client of `Test_executeQuery`. -/
def freshResponse : httpResponse :=
  { StatusCode := 200, Status := "200 OK", etag := "v1", Body := "\x7b\x7d" }

/-- A response with status 200 that carries the revalidation token `v2`. -/
def otherResponse : httpResponse :=
  { StatusCode := 200, Status := "200 OK", etag := "v2", Body := "\x7b\x7d" }

/-- Two calls on the shared cache, both answered with `otherResponse`: page 2 of the
listings of region `10000002`, and page 1 of the items of listing `144`. -/
def otherCalls : List queryCall :=
  [{ client := fun _ => .ok otherResponse, path := apiContracts, itemId := "10000002",
     page := 2 },
   { client := fun _ => .ok otherResponse, path := apiContractItems, itemId := "144",
     page := 1 }]

/-- A revalidation cache without entries. -/
def emptyETags : eTagsMap := fun _ => none

/-- The line items of the case `multicount` of `Test_checkSuitable`. -/
def multicountItems : List contractItem :=
  [testItem 1 true 1 2 123, testItem 2 true 2 1 111, testItem 3 true 2 1 321]

/-! ## Properties of `float64` arithmetic -/

open float64

theorem scale_pos : 0 < scale := by
  unfold scale
  positivity

theorem roundHalfEven_floor_le (q : ℚ) : ⌊q⌋ ≤ roundHalfEven q := by
  unfold roundHalfEven
  split_ifs <;> omega

theorem roundHalfEven_le_floor_succ (q : ℚ) : roundHalfEven q ≤ ⌊q⌋ + 1 := by
  unfold roundHalfEven
  split_ifs <;> omega

theorem roundHalfEven_intCast (n : Int) : roundHalfEven (n : ℚ) = n := by
  unfold roundHalfEven
  simp

theorem roundHalfEven_mono (q1 q2 : ℚ) (h : q1 ≤ q2) :
    roundHalfEven q1 ≤ roundHalfEven q2 := by
  have hf : ⌊q1⌋ ≤ ⌊q2⌋ := Int.floor_mono h
  rcases lt_or_eq_of_le hf with hlt | heq
  · calc roundHalfEven q1 ≤ ⌊q1⌋ + 1 := roundHalfEven_le_floor_succ q1
      _ ≤ ⌊q2⌋ := hlt
      _ ≤ roundHalfEven q2 := roundHalfEven_floor_le q2
  · have hr : q1 - ⌊q1⌋ ≤ q2 - ⌊q2⌋ := by rw [heq]; linarith
    unfold roundHalfEven
    rw [heq]
    split_ifs <;> first | omega | (exfalso; linarith)

theorem roundHalfEven_le_of_le (q : ℚ) (n : Int) (h : q ≤ n) : roundHalfEven q ≤ n := by
  have := roundHalfEven_mono q n h
  rwa [roundHalfEven_intCast] at this

theorem le_roundHalfEven_of_le (q : ℚ) (n : Int) (h : (n : ℚ) ≤ q) : n ≤ roundHalfEven q := by
  have := roundHalfEven_mono n q h
  rwa [roundHalfEven_intCast] at this

theorem log2Fuel_spec (fuel n : Nat) (hfuel : n ≤ fuel) (hn : n ≠ 0) :
    2 ^ log2Fuel fuel n ≤ n ∧ n < 2 ^ (log2Fuel fuel n + 1) := by
  induction fuel generalizing n with
  | zero => omega
  | succ fuel ih =>
    unfold log2Fuel
    by_cases h2 : n < 2
    · rw [if_pos h2]
      have : n = 1 := by omega
      subst this
      simp
    · rw [if_neg h2]
      have hdiv : n / 2 ≤ fuel := by omega
      have hne : n / 2 ≠ 0 := by omega
      obtain ⟨h1, h3⟩ := ih (n / 2) hdiv hne
      constructor
      · rw [pow_succ]; omega
      · rw [pow_succ]; omega

theorem natLog2_spec (n : Nat) (hn : n ≠ 0) :
    2 ^ natLog2 n ≤ n ∧ n < 2 ^ (natLog2 n + 1) :=
  log2Fuel_spec n n (le_refl n) hn

theorem natLog2_zero : natLog2 0 = 0 := rfl

theorem natLog2_lt (n : Nat) : n < 2 ^ (natLog2 n + 1) := by
  by_cases hn : n = 0
  · subst hn; simp
  · exact (natLog2_spec n hn).2

theorem natLog2_mono (n1 n2 : Nat) (h : n1 ≤ n2) : natLog2 n1 ≤ natLog2 n2 := by
  by_cases hn : n1 = 0
  · subst hn; rw [natLog2_zero]; omega
  · have h1 := (natLog2_spec n1 hn).1
    have h2 := natLog2_lt n2
    have h3 : 2 ^ natLog2 n1 < 2 ^ (natLog2 n2 + 1) := by omega
    have := (Nat.pow_lt_pow_iff_right (by norm_num : 1 < 2)).mp h3
    omega

theorem natLog2_cast_upper (N k : Nat) (hk : natLog2 N ≤ k + 104) :
    (N : ℚ) + 1 ≤ 2 ^ (k + 105) := by
  have h2 : N + 1 ≤ 2 ^ (natLog2 N + 1) := natLog2_lt N
  have h3 : 2 ^ (natLog2 N + 1) ≤ 2 ^ (k + 105) :=
    Nat.pow_le_pow_right (by norm_num) (by omega)
  have := le_trans h2 h3
  exact_mod_cast this

theorem natLog2_cast_lower (N k : Nat) (hk0 : 0 < k) (hk : k + 104 ≤ natLog2 N) :
    (2 : ℚ) ^ (k + 104) ≤ N := by
  have hN : N ≠ 0 := by
    intro h0
    rw [h0, natLog2_zero] at hk
    omega
  have h1 := (natLog2_spec N hN).1
  have h3 : 2 ^ (k + 104) ≤ 2 ^ natLog2 N := Nat.pow_le_pow_right (by norm_num) hk
  have := le_trans h3 h1
  exact_mod_cast this

theorem pow_split105 (k : Nat) : (2 : ℚ) ^ (k + 105) = 2 ^ 53 * 2 ^ k * 2 ^ 52 := by
  rw [show k + 105 = 53 + k + 52 by omega, pow_add, pow_add]

theorem pow_split104 (k : Nat) : (2 : ℚ) ^ (k + 104) = 2 ^ 52 * 2 ^ k * 2 ^ 52 := by
  rw [show k + 104 = 52 + k + 52 by omega, pow_add, pow_add]

theorem expo_upper (q : ℚ) : |q| * scale < 2 ^ 53 * 2 ^ expo q := by
  have h1 : |q| * scale * 2 ^ 52 < (⌊|q| * scale * 2 ^ 52⌋₊ : ℚ) + 1 :=
    Nat.lt_floor_add_one _
  have h4 := natLog2_cast_upper ⌊|q| * scale * 2 ^ 52⌋₊ (expo q)
    (Nat.le_add_of_sub_le (le_refl _))
  have h5 : |q| * scale * 2 ^ 52 < (2 : ℚ) ^ (expo q + 105) := lt_of_lt_of_le h1 h4
  rw [pow_split105] at h5
  exact lt_of_mul_lt_mul_right h5 (by positivity)

theorem expo_lower (q : ℚ) (hk : 0 < expo q) : 2 ^ 52 * 2 ^ expo q ≤ |q| * scale := by
  have h2 : (⌊|q| * scale * 2 ^ 52⌋₊ : ℚ) ≤ |q| * scale * 2 ^ 52 :=
    Nat.floor_le (mul_nonneg (mul_nonneg (abs_nonneg q) (le_of_lt scale_pos)) (by positivity))
  have hle : expo q + 104 ≤ natLog2 ⌊|q| * scale * 2 ^ 52⌋₊ := by
    have : expo q = natLog2 ⌊|q| * scale * 2 ^ 52⌋₊ - 104 := rfl
    omega
  have h4 := natLog2_cast_lower ⌊|q| * scale * 2 ^ 52⌋₊ (expo q) hk hle
  have h5 : (2 : ℚ) ^ (expo q + 104) ≤ |q| * scale * 2 ^ 52 := le_trans h4 h2
  rw [pow_split104] at h5
  exact le_of_mul_le_mul_right h5 (by positivity)

theorem expo_mono (q1 q2 : ℚ) (h : |q1| ≤ |q2|) : expo q1 ≤ expo q2 := by
  have hN : ⌊|q1| * scale * 2 ^ 52⌋₊ ≤ ⌊|q2| * scale * 2 ^ 52⌋₊ :=
    Nat.floor_mono (mul_le_mul_of_nonneg_right
      (mul_le_mul_of_nonneg_right h (le_of_lt scale_pos)) (by positivity))
  exact Nat.sub_le_sub_right (natLog2_mono _ _ hN) 104

theorem scaled_nonneg (q : ℚ) (h : 0 ≤ q) : 0 ≤ scaled q := by
  unfold scaled
  have h1 : ((0 : Int) : ℚ) ≤ q * scale / 2 ^ expo q := by
    simp only [Int.cast_zero]
    exact div_nonneg (mul_nonneg h (le_of_lt scale_pos)) (by positivity)
  have := le_roundHalfEven_of_le _ 0 h1
  positivity

theorem scaled_nonpos (q : ℚ) (h : q ≤ 0) : scaled q ≤ 0 := by
  unfold scaled
  have h1 : q * scale / 2 ^ expo q ≤ ((0 : Int) : ℚ) := by
    simp only [Int.cast_zero]
    apply div_nonpos_of_nonpos_of_nonneg
    · exact mul_nonpos_of_nonpos_of_nonneg h (le_of_lt scale_pos)
    · positivity
  have := roundHalfEven_le_of_le _ 0 h1
  exact mul_nonpos_of_nonpos_of_nonneg this (by positivity)

theorem scaled_mono_nonneg (q1 q2 : ℚ) (h0 : 0 ≤ q1) (h : q1 ≤ q2) :
    scaled q1 ≤ scaled q2 := by
  have ha1 : |q1| = q1 := abs_of_nonneg h0
  have ha2 : |q2| = q2 := abs_of_nonneg (le_trans h0 h)
  have hk : expo q1 ≤ expo q2 := expo_mono q1 q2 (by rw [ha1, ha2]; exact h)
  unfold scaled
  rcases lt_or_eq_of_le hk with hlt | heq
  · have hu := expo_upper q1
    have hl := expo_lower q2 (by omega)
    rw [ha1] at hu
    rw [ha2] at hl
    have hm1 : q1 * scale / 2 ^ expo q1 ≤ (((2 : Int) ^ 53 : Int) : ℚ) := by
      rw [div_le_iff₀ (by positivity)]
      push_cast
      exact le_of_lt hu
    have hm2 : (((2 : Int) ^ 52 : Int) : ℚ) ≤ q2 * scale / 2 ^ expo q2 := by
      rw [le_div_iff₀ (by positivity)]
      push_cast
      exact hl
    have hr1 := roundHalfEven_le_of_le _ _ hm1
    have hr2 := le_roundHalfEven_of_le _ _ hm2
    have hp : (2 : Int) ^ 53 * 2 ^ expo q1 ≤ 2 ^ 52 * 2 ^ expo q2 := by
      rw [← pow_add, ← pow_add]
      exact pow_le_pow_right₀ (by norm_num) (by omega)
    calc roundHalfEven (q1 * scale / 2 ^ expo q1) * 2 ^ expo q1
        ≤ 2 ^ 53 * 2 ^ expo q1 := mul_le_mul_of_nonneg_right hr1 (by positivity)
      _ ≤ 2 ^ 52 * 2 ^ expo q2 := hp
      _ ≤ roundHalfEven (q2 * scale / 2 ^ expo q2) * 2 ^ expo q2 :=
        mul_le_mul_of_nonneg_right hr2 (by positivity)
  · rw [heq]
    apply mul_le_mul_of_nonneg_right _ (by positivity)
    apply roundHalfEven_mono
    apply div_le_div_of_nonneg_right _ (by positivity)
    exact mul_le_mul_of_nonneg_right h (le_of_lt scale_pos)

theorem scaled_mono_nonpos (q1 q2 : ℚ) (h0 : q2 ≤ 0) (h : q1 ≤ q2) :
    scaled q1 ≤ scaled q2 := by
  have ha1 : |q1| = -q1 := abs_of_nonpos (le_trans h h0)
  have ha2 : |q2| = -q2 := abs_of_nonpos h0
  have hk : expo q2 ≤ expo q1 := expo_mono q2 q1 (by rw [ha1, ha2]; linarith)
  unfold scaled
  rcases lt_or_eq_of_le hk with hlt | heq
  · have hu := expo_upper q2
    have hl := expo_lower q1 (by omega)
    rw [ha2] at hu
    rw [ha1] at hl
    have hm2 : ((-(2 : Int) ^ 53 : Int) : ℚ) ≤ q2 * scale / 2 ^ expo q2 := by
      rw [le_div_iff₀ (by positivity)]
      push_cast
      linarith
    have hm1 : q1 * scale / 2 ^ expo q1 ≤ ((-(2 : Int) ^ 52 : Int) : ℚ) := by
      rw [div_le_iff₀ (by positivity)]
      push_cast
      linarith
    have hr2 := le_roundHalfEven_of_le _ _ hm2
    have hr1 := roundHalfEven_le_of_le _ _ hm1
    have hp : (2 : Int) ^ 53 * 2 ^ expo q2 ≤ 2 ^ 52 * 2 ^ expo q1 := by
      rw [← pow_add, ← pow_add]
      exact pow_le_pow_right₀ (by norm_num) (by omega)
    calc roundHalfEven (q1 * scale / 2 ^ expo q1) * 2 ^ expo q1
        ≤ -(2 : Int) ^ 52 * 2 ^ expo q1 := mul_le_mul_of_nonneg_right hr1 (by positivity)
      _ ≤ -(2 : Int) ^ 53 * 2 ^ expo q2 := by linarith
      _ ≤ roundHalfEven (q2 * scale / 2 ^ expo q2) * 2 ^ expo q2 :=
        mul_le_mul_of_nonneg_right hr2 (by positivity)
  · rw [heq]
    apply mul_le_mul_of_nonneg_right _ (by positivity)
    apply roundHalfEven_mono
    apply div_le_div_of_nonneg_right _ (by positivity)
    exact mul_le_mul_of_nonneg_right h (le_of_lt scale_pos)

theorem scaled_mono (q1 q2 : ℚ) (h : q1 ≤ q2) : scaled q1 ≤ scaled q2 := by
  rcases le_total 0 q1 with h1 | h1
  · exact scaled_mono_nonneg q1 q2 h1 h
  · rcases le_total q2 0 with h2 | h2
    · exact scaled_mono_nonpos q1 q2 h2 h
    · exact le_trans (scaled_nonpos q1 h1) (scaled_nonneg q2 h2)

theorem ofRat_mono (q1 q2 : ℚ) (h : q1 ≤ q2) : le (ofRat q1) (ofRat q2) = true := by
  have hs := scaled_mono q1 q2 h
  unfold ofRat
  by_cases o1 : overflowBound ≤ |scaled q1|
  · rw [if_pos o1]
    have hneg1 : overflowBound ≤ scaled q1 ∨ q1 < 0 := by
      rcases lt_or_le q1 0 with hq | hq
      · exact Or.inr hq
      · left
        rwa [abs_of_nonneg (scaled_nonneg q1 hq)] at o1
    by_cases o2 : overflowBound ≤ |scaled q2|
    · rw [if_pos o2]
      simp only [le, Bool.or_eq_true, decide_eq_true_eq, Bool.not_eq_true', decide_eq_false_iff_not,
        not_lt]
      rcases lt_or_le q2 0 with hq | hq
      · exact Or.inl (lt_of_le_of_lt h hq)
      · exact Or.inr hq
    · rw [if_neg o2]
      simp only [le, decide_eq_true_eq]
      rcases hneg1 with hb | hq
      · exfalso
        apply o2
        exact le_trans (le_trans hb hs) (le_abs_self _)
      · exact hq
  · rw [if_neg o1]
    by_cases o2 : overflowBound ≤ |scaled q2|
    · rw [if_pos o2]
      simp only [le, Bool.not_eq_true', decide_eq_false_iff_not, not_lt]
      by_contra hq
      push_neg at hq
      apply o1
      have h2 : scaled q2 ≤ 0 := scaled_nonpos q2 (le_of_lt hq)
      rw [abs_of_nonpos h2] at o2
      rw [abs_of_nonpos (le_trans hs h2)]
      linarith
    · rw [if_neg o2]
      simp only [le, decide_eq_true_eq]
      exact hs

theorem posF_nonnegF (x : float64) (h : posF x) : nonnegF x := by
  rcases h with h | ⟨m, k, h, hm⟩
  · exact Or.inl h
  · exact Or.inr ⟨m, k, h, le_of_lt hm⟩

theorem lt_zero_of_posF (x : float64) (h : posF x) : lt zero x = true := by
  rcases h with h | ⟨m, k, h, hm⟩
  · subst h; rfl
  · subst h
    simp only [lt, zero, decide_eq_true_eq]
    positivity

theorem toRat_fin_nonneg (m : Int) (k : Nat) (h : 0 ≤ m) : 0 ≤ toRat (fin m k) := by
  unfold toRat
  exact div_nonneg (mul_nonneg (by exact_mod_cast h) (by positivity)) (le_of_lt scale_pos)

theorem toRat_fin_pos (m : Int) (k : Nat) (h : 0 < m) : 1 ≤ toRat (fin m k) * scale := by
  unfold toRat
  rw [div_mul_cancel₀ _ (ne_of_gt scale_pos)]
  have h1 : (1 : ℚ) ≤ (m : ℚ) := by exact_mod_cast h
  have h2 : (1 : ℚ) ≤ 2 ^ k := one_le_pow₀ (by norm_num)
  calc (1 : ℚ) = 1 * 1 := by ring
    _ ≤ (m : ℚ) * 2 ^ k := mul_le_mul h1 h2 (by norm_num) (by linarith)

theorem ofRat_nonneg (q : ℚ) (h : 0 ≤ q) : nonnegF (ofRat q) := by
  unfold ofRat
  by_cases o : overflowBound ≤ |scaled q|
  · rw [if_pos o]
    left
    simp [not_lt.mpr h]
  · rw [if_neg o]
    right
    refine ⟨_, _, rfl, ?_⟩
    apply le_roundHalfEven_of_le _ 0
    simp only [Int.cast_zero]
    exact div_nonneg (mul_nonneg h (le_of_lt scale_pos)) (by positivity)

theorem ofRat_pos (q : ℚ) (h : 1 ≤ q * scale) : posF (ofRat q) := by
  have hq : 0 < q := by
    by_contra hn
    push_neg at hn
    have := mul_nonpos_of_nonpos_of_nonneg hn (le_of_lt scale_pos)
    linarith
  unfold ofRat
  by_cases o : overflowBound ≤ |scaled q|
  · rw [if_pos o]
    left
    simp [not_lt.mpr (le_of_lt hq)]
  · rw [if_neg o]
    right
    refine ⟨_, _, rfl, ?_⟩
    by_cases hk : expo q = 0
    · rw [hk]
      have : ((1 : Int) : ℚ) ≤ q * scale / 2 ^ 0 := by simpa using h
      have := le_roundHalfEven_of_le _ 1 this
      omega
    · have hl := expo_lower q (Nat.pos_of_ne_zero hk)
      rw [abs_of_pos hq] at hl
      have : (((2 : Int) ^ 52 : Int) : ℚ) ≤ q * scale / 2 ^ expo q := by
        rw [le_div_iff₀ (by positivity)]
        push_cast
        exact hl
      have := le_roundHalfEven_of_le _ _ this
      have h52 : (0 : Int) < 2 ^ 52 := by positivity
      omega

theorem add_nonnegF (x y : float64) (hx : nonnegF x) (hy : nonnegF y) :
    nonnegF (add x y) := by
  rcases hx with rfl | ⟨m1, k1, rfl, h1⟩ <;> rcases hy with rfl | ⟨m2, k2, rfl, h2⟩
  · left; rfl
  · left; rfl
  · left; rfl
  · exact ofRat_nonneg _ (add_nonneg (toRat_fin_nonneg m1 k1 h1) (toRat_fin_nonneg m2 k2 h2))

theorem add_posF_left (x y : float64) (hx : posF x) (hy : nonnegF y) : posF (add x y) := by
  rcases hx with rfl | ⟨m1, k1, rfl, h1⟩ <;> rcases hy with rfl | ⟨m2, k2, rfl, h2⟩
  · left; rfl
  · left; rfl
  · left; rfl
  · apply ofRat_pos
    have ha := toRat_fin_pos m1 k1 h1
    have hb := mul_nonneg (toRat_fin_nonneg m2 k2 h2) (le_of_lt scale_pos)
    rw [add_mul]
    linarith

theorem add_posF_right (x y : float64) (hx : nonnegF x) (hy : posF y) : posF (add x y) := by
  rcases hx with rfl | ⟨m1, k1, rfl, h1⟩ <;> rcases hy with rfl | ⟨m2, k2, rfl, h2⟩
  · left; rfl
  · left; rfl
  · left; rfl
  · apply ofRat_pos
    have ha := toRat_fin_pos m2 k2 h2
    have hb := mul_nonneg (toRat_fin_nonneg m1 k1 h1) (le_of_lt scale_pos)
    rw [add_mul]
    linarith

theorem ofRat_ne_nan (q : ℚ) : ofRat q ≠ nan := by
  unfold ofRat
  split <;> simp

theorem toRat_ofRat (q : ℚ) (h : ¬ overflowBound ≤ |scaled q|) :
    ofRat q = fin (roundHalfEven (q * scale / 2 ^ expo q)) (expo q) ∧
      toRat (ofRat q) = (scaled q : ℚ) / scale := by
  unfold ofRat
  rw [if_neg h]
  refine ⟨rfl, ?_⟩
  unfold toRat scaled
  push_cast
  rfl

theorem le_fin_iff (m1 : Int) (k1 : Nat) (m2 : Int) (k2 : Nat) :
    le (fin m1 k1) (fin m2 k2) = true ↔ toRat (fin m1 k1) ≤ toRat (fin m2 k2) := by
  simp only [le, decide_eq_true_eq, toRat]
  rw [div_le_div_iff_of_pos_right scale_pos]
  constructor
  · intro h; exact_mod_cast h
  · intro h; exact_mod_cast h

theorem lt_false_of_dominates (x y : float64) (h : dominates x y) : lt x y = false := by
  rcases h with rfl | rfl | h
  · rfl
  · cases x <;> rfl
  · cases x <;> cases y <;> simp_all [le, lt]
    rename_i s1 s2
    cases s1 <;> cases s2 <;> simp_all

theorem dominates_refl (x : float64) : dominates x x := by
  cases x with
  | nan => exact Or.inl rfl
  | inf s => right; right; cases s <;> rfl
  | fin m k => right; right; simp [le]

theorem add_dominates_left (x y t : float64) (h : dominates x y) :
    dominates (add x t) (add y t) := by
  rcases h with rfl | rfl | h
  · left; cases t <;> rfl
  · right; left; cases t <;> rfl
  · cases t with
    | nan => left; cases x <;> rfl
    | inf st =>
      cases x with
      | nan => left; rfl
      | inf sx =>
        cases y with
        | nan => right; left; rfl
        | inf sy =>
          cases sx <;> cases sy <;> cases st <;> simp_all [add, le, dominates]
        | fin my ky =>
          cases sx <;> cases st <;> simp_all [add, le, dominates]
      | fin mx kx =>
        cases y with
        | nan => right; left; rfl
        | inf sy =>
          cases sy <;> cases st <;> simp_all [add, le, dominates]
        | fin my ky =>
          cases st <;> simp [add, le, dominates]
    | fin mt kt =>
      cases x with
      | nan => left; rfl
      | inf sx =>
        cases y with
        | nan => right; left; rfl
        | inf sy => cases sx <;> cases sy <;> simp_all [add, le, dominates]
        | fin my ky =>
          cases sx
          · right; right
            simp only [add]
            have := ofRat_ne_nan (toRat (fin my ky) + toRat (fin mt kt))
            cases hres : ofRat (toRat (fin my ky) + toRat (fin mt kt)) with
            | nan => exact absurd hres this
            | inf s => simp [le]
            | fin m k => simp [le]
          · simp [le] at h
      | fin mx kx =>
        cases y with
        | nan => right; left; rfl
        | inf sy =>
          cases sy
          · simp [le] at h
          · right; right
            simp only [add]
            have := ofRat_ne_nan (toRat (fin mx kx) + toRat (fin mt kt))
            cases hres : ofRat (toRat (fin mx kx) + toRat (fin mt kt)) with
            | nan => exact absurd hres this
            | inf s => simp [le]
            | fin m k => simp [le]
        | fin my ky =>
          right; right
          simp only [add]
          apply ofRat_mono
          have := (le_fin_iff my ky mx kx).mp h
          linarith

theorem add_comm_f (x y : float64) : add x y = add y x := by
  cases x <;> cases y <;> simp [add, add_comm]
  rename_i s1 s2
  cases s1 <;> cases s2 <;> simp

theorem add_dominates_right (b x y : float64) (h : dominates x y) :
    dominates (add b x) (add b y) := by
  rw [add_comm_f b x, add_comm_f b y]
  exact add_dominates_left x y b h

theorem scaled_int32_bound : scaled ((2147483648 : Int) : ℚ) < overflowBound := by decide!

theorem scaled_one : ((scaled ((1 : Int) : ℚ) : Int) : ℚ) = scale := by decide!

theorem ofInt_int32 (K : Int) (h0 : 0 ≤ K) (h1 : K ≤ 2147483648) :
    ∃ m k, ofInt K = fin m k ∧ 0 ≤ m ∧
      toRat (fin m k) = ((scaled (K : ℚ) : Int) : ℚ) / scale := by
  have hq0 : (0 : ℚ) ≤ (K : ℚ) := by exact_mod_cast h0
  have hq1 : (K : ℚ) ≤ ((2147483648 : Int) : ℚ) := by exact_mod_cast h1
  have hs0 := scaled_nonneg (K : ℚ) hq0
  have hs1 := scaled_mono _ _ hq1
  have hno : ¬ overflowBound ≤ |scaled (K : ℚ)| := by
    rw [abs_of_nonneg hs0]
    have := scaled_int32_bound
    omega
  obtain ⟨he, ht⟩ := toRat_ofRat (K : ℚ) hno
  refine ⟨_, _, he, ?_, ?_⟩
  · apply le_roundHalfEven_of_le _ 0
    simp only [Int.cast_zero]
    exact div_nonneg (mul_nonneg hq0 (le_of_lt scale_pos)) (by positivity)
  · rw [← he]; exact ht

theorem ofInt_int32_pos (K : Int) (h0 : 1 ≤ K) (h1 : K ≤ 2147483648) :
    ∃ m k, ofInt K = fin m k ∧ 0 < m ∧ 1 ≤ toRat (fin m k) := by
  obtain ⟨m, k, he, hm, ht⟩ := ofInt_int32 K (by omega) h1
  have hq1 : ((1 : Int) : ℚ) ≤ (K : ℚ) := by exact_mod_cast h0
  have hs := scaled_mono _ _ hq1
  have hone : 1 ≤ toRat (fin m k) := by
    rw [ht, le_div_iff₀ scale_pos, one_mul, ← scaled_one]
    exact_mod_cast hs
  refine ⟨m, k, he, ?_, hone⟩
  by_contra hn
  have hm0 : m = 0 := by omega
  rw [hm0] at hone
  simp [toRat] at hone
  linarith

theorem ofInt_mono (K1 K2 : Int) (h0 : 0 ≤ K1) (h : K1 ≤ K2) (h2 : K2 ≤ 2147483648) :
    ∃ m1 k1 m2 k2, ofInt K1 = fin m1 k1 ∧ ofInt K2 = fin m2 k2 ∧ 0 ≤ m1 ∧
      toRat (fin m1 k1) ≤ toRat (fin m2 k2) := by
  obtain ⟨m1, k1, he1, hm1, ht1⟩ := ofInt_int32 K1 h0 (by omega)
  obtain ⟨m2, k2, he2, _, ht2⟩ := ofInt_int32 K2 (by omega) h2
  refine ⟨m1, k1, m2, k2, he1, he2, hm1, ?_⟩
  rw [ht1, ht2, div_le_div_iff_of_pos_right scale_pos]
  have hq : (K1 : ℚ) ≤ (K2 : ℚ) := by exact_mod_cast h
  exact_mod_cast scaled_mono _ _ hq

theorem mul_nonnegF (mp : Int) (kp : Nat) (ma : Int) (ka : Nat) (hp : 0 ≤ mp) (ha : 0 ≤ ma) :
    nonnegF (mul (fin mp kp) (fin ma ka)) :=
  ofRat_nonneg _ (mul_nonneg (toRat_fin_nonneg mp kp hp) (toRat_fin_nonneg ma ka ha))

theorem mul_posF (mp : Int) (kp : Nat) (ma : Int) (ka : Nat) (hp : 0 < mp)
    (ha : 1 ≤ toRat (fin ma ka)) : posF (mul (fin mp kp) (fin ma ka)) := by
  apply ofRat_pos
  have h1 := toRat_fin_pos mp kp hp
  have h2 : toRat (fin mp kp) * toRat (fin ma ka) * scale =
      toRat (fin mp kp) * scale * toRat (fin ma ka) := by ring
  rw [h2]
  calc (1 : ℚ) = 1 * 1 := by ring
    _ ≤ toRat (fin mp kp) * scale * toRat (fin ma ka) :=
      mul_le_mul h1 ha (by norm_num) (by linarith)

theorem mul_dominates (p : float64) (ma : Int) (ka : Nat) (mc : Int) (kc : Nat)
    (hp : posF p) (hc : 0 ≤ mc) (ha : 0 < ma)
    (hle : toRat (fin mc kc) ≤ toRat (fin ma ka)) :
    dominates (mul p (fin ma ka)) (mul p (fin mc kc)) := by
  rcases hp with rfl | ⟨mp, kp, rfl, hmp⟩
  · by_cases h0 : mc = 0
    · right; left
      simp [mul, h0]
    · right; right
      have h1 : ma ≠ 0 := by omega
      have h2 : ¬ ma < 0 := by omega
      have h3 : ¬ mc < 0 := by omega
      simp [mul, h0, h1, h2, h3, le]
  · right; right
    simp only [mul]
    apply ofRat_mono
    exact mul_le_mul_of_nonneg_left hle (toRat_fin_nonneg mp kp (le_of_lt hmp))

/-! ## Properties of `checkSuitable` -/

theorem wrapInt32_of_fits (x : Int) (h1 : -2147483648 ≤ x) (h2 : x < 2147483648) :
    wrapInt32 x = x := by
  unfold wrapInt32
  omega

theorem checkSuitableLoop_excluded (registry : Int → Option registryItem)
    (items : List contractItem) (h : ∃ item ∈ items, item.IsIncluded = false)
    (excluded : Bool) (contractBound : float64) :
    (checkSuitableLoop registry items excluded contractBound).1 = true := by
  induction items generalizing contractBound with
  | nil => simp at h
  | cons a rest ih =>
    unfold checkSuitableLoop
    cases ha : a.IsIncluded with
    | false => simp
    | true =>
      simp only [Bool.not_true, Bool.false_eq_true, if_false]
      apply ih
      obtain ⟨item, hmem, hitem⟩ := h
      rcases List.mem_cons.mp hmem with rfl | hmem
      · rw [ha] at hitem; cases hitem
      · exact ⟨item, hmem, hitem⟩

theorem checkSuitableLoop_included (registry : Int → Option registryItem)
    (items : List contractItem) (hinc : ∀ item ∈ items, item.IsIncluded = true)
    (hfit : ∀ item ∈ items, -2147483648 ≤ effectiveRuns item.Runs * item.Quantity ∧
      effectiveRuns item.Runs * item.Quantity < 2147483648)
    (excluded : Bool) (contractBound : float64) :
    checkSuitableLoop registry items excluded contractBound =
      (excluded, referenceValue64 registry items contractBound) := by
  induction items generalizing contractBound with
  | nil => rfl
  | cons a rest ih =>
    have ha := hinc a (List.mem_cons_self _ _)
    have hf := hfit a (List.mem_cons_self _ _)
    unfold checkSuitableLoop referenceValue64
    rw [ha]
    simp only [Bool.not_true, Bool.false_eq_true, if_false]
    rw [ih (fun item hm => hinc item (List.mem_cons_of_mem _ hm))
      (fun item hm => hfit item (List.mem_cons_of_mem _ hm))]
    unfold accumulate
    rw [wrapInt32_of_fits _ hf.1 hf.2]

theorem checkSuitableLoop_unwatched (registry : Int → Option registryItem)
    (items : List contractItem) (h : ∀ item ∈ items, registry item.TypeId = none)
    (excluded : Bool) (contractBound : float64) :
    (checkSuitableLoop registry items excluded contractBound).2 = contractBound := by
  induction items generalizing contractBound with
  | nil => simp [checkSuitableLoop]
  | cons a rest ih =>
    have ha := h a (List.mem_cons_self _ _)
    have hacc : accumulate registry a contractBound = contractBound := by
      simp [accumulate, ha]
    unfold checkSuitableLoop
    rw [hacc]
    cases a.IsIncluded with
    | false => simp
    | true =>
      simp only [Bool.not_true, Bool.false_eq_true, if_false]
      exact ih (fun item hm => h item (List.mem_cons_of_mem _ hm)) contractBound

theorem checkSuitableLoop_dominates (registry : Int → Option registryItem)
    (items : List contractItem) (excluded : Bool) (b1 b2 : float64)
    (h : dominates b1 b2) :
    dominates (checkSuitableLoop registry items excluded b1).2
      (checkSuitableLoop registry items excluded b2).2 := by
  induction items generalizing b1 b2 with
  | nil => exact h
  | cons a rest ih =>
    have hacc : dominates (accumulate registry a b1) (accumulate registry a b2) := by
      unfold accumulate
      cases registry a.TypeId with
      | none => exact h
      | some curr => exact add_dominates_left _ _ _ h
    unfold checkSuitableLoop
    cases a.IsIncluded with
    | false => simpa using hacc
    | true =>
      simp only [Bool.not_true, Bool.false_eq_true, if_false]
      exact ih _ _ hacc

theorem checkSuitableLoop_prefix_dominates (registry : Int → Option registryItem)
    (pre l1 l2 : List contractItem) (excluded : Bool)
    (h : ∀ b, dominates (checkSuitableLoop registry l1 excluded b).2
      (checkSuitableLoop registry l2 excluded b).2) (contractBound : float64) :
    dominates (checkSuitableLoop registry (pre ++ l1) excluded contractBound).2
      (checkSuitableLoop registry (pre ++ l2) excluded contractBound).2 := by
  induction pre generalizing contractBound with
  | nil => exact h contractBound
  | cons a rest ih =>
    simp only [List.cons_append]
    unfold checkSuitableLoop
    cases a.IsIncluded with
    | false => simpa using dominates_refl _
    | true =>
      simp only [Bool.not_true, Bool.false_eq_true, if_false]
      exact ih _

theorem posF_of_lt_zero (p : float64) (h : lt zero p = true) : posF p := by
  cases p with
  | nan => simp [lt, zero] at h
  | inf s =>
    left
    cases s
    · rfl
    · simp [lt, zero] at h
  | fin m k =>
    right
    refine ⟨m, k, rfl, ?_⟩
    simp only [lt, zero, decide_eq_true_eq] at h
    by_contra hn
    have hm : m ≤ 0 := by omega
    have : m * 2 ^ k ≤ 0 := mul_nonpos_of_nonpos_of_nonneg hm (by positivity)
    omega

/-- C1 fails as stated: with the watch-list `123 → 1`, the listing price `1001000` and
one included line item of type 123 with one run and quantity 1, the exact difference
`1001000 / 1000000 - 1` is `0.001`, not below `0.001`, yet `checkSuitable` returns true
(the `float64` quotient lies below `1.001`); and with the watch-list `123 → 2 ^ -70` and
the listing price `1000` the exact difference is below `0.001` and the reference value is
positive, yet `checkSuitable` returns false. -/
theorem checkSuitable_exact_counterexample :
    (checkSuitable unitRegistry (testContract 144 1001000 itemExchange)
        [testItem 1 true 1 1 123] = true ∧
      (∀ item ∈ [testItem 1 true 1 1 123], item.IsIncluded = true) ∧
      ¬ ((testContract 144 1001000 itemExchange).Price.toRat / 1000000 -
          referenceValue unitRegistry [testItem 1 true 1 1 123] < 1 / 1000)) ∧
    (checkSuitable (priceRegistry (1 / 2 ^ 70)) (testContract 144 1000 itemExchange)
        [testItem 1 true 1 1 123] = false ∧
      (∀ item ∈ [testItem 1 true 1 1 123], item.IsIncluded = true) ∧
      0 < referenceValue (priceRegistry (1 / 2 ^ 70)) [testItem 1 true 1 1 123] ∧
      (testContract 144 1000 itemExchange).Price.toRat / 1000000 -
          referenceValue (priceRegistry (1 / 2 ^ 70)) [testItem 1 true 1 1 123] <
        1 / 1000) := by
  decide!

/-- C1 (amended): when every product `effective_runs × quantity` fits in a signed 32-bit
integer, `checkSuitable` returns true exactly when every line item is included, the
reference value of the specification computed in `float64` in list order is positive, and
the price divided by 1000000 minus the reference value, computed in `float64`, is below
the `float64` constant 0.001. -/
theorem checkSuitable_iff (registry : Int → Option registryItem) (c : contract)
    (items : List contractItem)
    (hfit : ∀ item ∈ items, -2147483648 ≤ effectiveRuns item.Runs * item.Quantity ∧
      effectiveRuns item.Runs * item.Quantity < 2147483648) :
    checkSuitable registry c items = true ↔
      ((∀ item ∈ items, item.IsIncluded = true) ∧
        float64.lt float64.zero (referenceValue64 registry items float64.zero) = true ∧
        float64.lt
          (float64.sub (float64.div c.Price million)
            (referenceValue64 registry items float64.zero)) thousandth = true) := by
  by_cases hinc : ∀ item ∈ items, item.IsIncluded = true
  · unfold checkSuitable
    rw [checkSuitableLoop_included registry items hinc hfit]
    simp only [Bool.not_false, Bool.true_and, Bool.and_eq_true]
    exact ⟨fun h => ⟨hinc, h.1, h.2⟩, fun h => ⟨h.2.1, h.2.2⟩⟩
  · have hex : ∃ item ∈ items, item.IsIncluded = false := by
      by_contra hne
      apply hinc
      intro item hm
      cases hi : item.IsIncluded with
      | true => rfl
      | false => exact absurd ⟨item, hm, hi⟩ hne
    have h1 := checkSuitableLoop_excluded registry items hex false float64.zero
    unfold checkSuitable
    simp [h1, hinc]

/-- The case `found` of `Test_checkSuitable` as an instance of the amended C1. -/
theorem checkSuitable_iff_witness :
    (∀ item ∈ [testItem 1 true 1 1 321],
      -2147483648 ≤ effectiveRuns item.Runs * item.Quantity ∧
        effectiveRuns item.Runs * item.Quantity < 2147483648) ∧
    checkSuitable testRegistry (testContract 144 (1760000001 / 2) itemExchange)
        [testItem 1 true 1 1 321] = true ∧
    (checkSuitable testRegistry (testContract 144 (1760000001 / 2) itemExchange)
        [testItem 1 true 1 1 321] = true ↔
      ((∀ item ∈ [testItem 1 true 1 1 321], item.IsIncluded = true) ∧
        float64.lt float64.zero
          (referenceValue64 testRegistry [testItem 1 true 1 1 321] float64.zero) = true ∧
        float64.lt
          (float64.sub
            (float64.div (testContract 144 (1760000001 / 2) itemExchange).Price million)
            (referenceValue64 testRegistry [testItem 1 true 1 1 321] float64.zero))
          thousandth = true)) :=
  ⟨by decide, by decide!, checkSuitable_iff testRegistry _ _ (by decide)⟩

/-- C6: a list of line items that contains a line item with `IsIncluded = false` is never
suitable, whatever the watch-list and the price. -/
theorem checkSuitable_excluded (registry : Int → Option registryItem) (c : contract)
    (items : List contractItem) (h : ∃ item ∈ items, item.IsIncluded = false) :
    checkSuitable registry c items = false := by
  unfold checkSuitable
  simp [checkSuitableLoop_excluded registry items h false float64.zero]

/-- The case `excluded` of `Test_checkSuitable` as an instance of C6. -/
theorem checkSuitable_excluded_witness :
    (∃ item ∈ [testItem 2 true 1 2 123, testItem 3 false 2 1 333],
      item.IsIncluded = false) ∧
    checkSuitable testRegistry (testContract 144 190000000 itemExchange)
      [testItem 2 true 1 2 123, testItem 3 false 2 1 333] = false :=
  ⟨⟨testItem 3 false 2 1 333, by simp, rfl⟩,
    checkSuitable_excluded testRegistry _ _ ⟨testItem 3 false 2 1 333, by simp, rfl⟩⟩

/-- C8: when no line item has a type id that is a key of the watch-list (in particular
for no line items or an empty watch-list), `checkSuitable` returns false at any price. -/
theorem checkSuitable_unwatched (registry : Int → Option registryItem) (c : contract)
    (items : List contractItem) (h : ∀ item ∈ items, registry item.TypeId = none) :
    checkSuitable registry c items = false := by
  have h2 := checkSuitableLoop_unwatched registry items h false float64.zero
  have h0 : float64.lt float64.zero float64.zero = false := by decide
  unfold checkSuitable
  simp only [h2, h0]
  simp

/-- The case `not found` of `Test_checkSuitable` as an instance of C8. -/
theorem checkSuitable_unwatched_witness :
    (∀ item ∈ [testItem 2 true 1 1 122], testRegistry item.TypeId = none) ∧
    checkSuitable testRegistry (testContract 144 (1760000001 / 2) itemExchange)
      [testItem 2 true 1 1 122] = false :=
  ⟨by decide, checkSuitable_unwatched testRegistry _ _ (by decide)⟩

theorem accumulate_original_dominates (registry : Int → Option registryItem)
    (curr : registryItem) (item : contractItem) (rOrig rCopy : Int) (b : float64)
    (hreg : registry item.TypeId = some curr)
    (hprice : float64.lt float64.zero curr.Price = true)
    (hq0 : 0 < item.Quantity) (hq1 : 32767 * item.Quantity < 2147483648)
    (hneg : rOrig < 0) (h0 : 0 ≤ rCopy) (h1 : rCopy < 32767) :
    dominates (accumulate registry { item with Runs := rOrig } b)
      (accumulate registry { item with Runs := rCopy } b) := by
  have hmul : rCopy * item.Quantity < 32767 * item.Quantity :=
    Int.mul_lt_mul_of_pos_right h1 hq0
  have hnn : 0 ≤ rCopy * item.Quantity := Int.mul_nonneg h0 (le_of_lt hq0)
  have heO : effectiveRuns rOrig = 32767 := by
    unfold effectiveRuns; rw [if_pos hneg]; rfl
  have heC : effectiveRuns rCopy = rCopy := by
    unfold effectiveRuns; rw [if_neg (not_lt.mpr h0)]
  unfold accumulate
  simp only [hreg]
  rw [heO, heC, wrapInt32_of_fits _ (by omega) (by omega),
    wrapInt32_of_fits _ (by omega) (by omega)]
  obtain ⟨mc, kc, ma, ka, hc, ha, hmc, hle⟩ :=
    ofInt_mono (rCopy * item.Quantity) (32767 * item.Quantity) hnn (le_of_lt hmul)
      (by omega)
  obtain ⟨ma2, ka2, ha2, hpos, _⟩ :=
    ofInt_int32_pos (32767 * item.Quantity) (by omega) (by omega)
  have hma : 0 < ma := by
    rw [ha] at ha2
    cases ha2
    exact hpos
  rw [hc, ha]
  exact add_dominates_right b _ _
    (mul_dominates curr.Price ma ka mc kc (posF_of_lt_zero _ hprice) hmc hma hle)

/-- C7 fails as stated: with the watch-list `123 → 1` and quantity 1, a line item with
`Runs = -1` accumulates 32767, less than the 40000 of the same item with `Runs = 40000`;
with quantity 65539 the 32-bit product of the original wraps to a negative number, below
the 0 accumulated with `Runs = 0`; and with the watch-list `123 → 1e308` the original and
the copy with 10 runs both accumulate `+Inf`, so the original is not strictly greater. -/
theorem original_exceeds_copy_counterexample :
    float64.lt (checkSuitableLoop unitRegistry [testItem 1 true (-1) 1 123] false
          float64.zero).2
        (checkSuitableLoop unitRegistry [testItem 1 true 40000 1 123] false
          float64.zero).2 = true ∧
      float64.lt (checkSuitableLoop unitRegistry [testItem 1 true (-1) 65539 123] false
          float64.zero).2
        (checkSuitableLoop unitRegistry [testItem 1 true 0 65539 123] false
          float64.zero).2 = true ∧
      (checkSuitableLoop (priceRegistry (10 ^ 308)) [testItem 1 true (-1) 1 123] false
          float64.zero).2 = float64.inf false ∧
      (checkSuitableLoop (priceRegistry (10 ^ 308)) [testItem 1 true 10 1 123] false
          float64.zero).2 = float64.inf false := by
  decide!

/-- C7 (amended): for a watched item type with a positive reference price and a quantity
`q > 0` with `32767 * q` inside the signed 32-bit range, the reference value that
`checkSuitable` accumulates in `float64` over a list of line items is never less when one
line item has a negative run count than when the same line item has a run count `r` with
`0 ≤ r < 32767`, whatever the line items before and after it; and the integer factor
`effective_runs × quantity` of the original is strictly greater than that of the copy. -/
theorem original_exceeds_copy (registry : Int → Option registryItem) (curr : registryItem)
    (item : contractItem) (rOrig rCopy : Int) (pre post : List contractItem)
    (excluded : Bool) (contractBound : float64)
    (hreg : registry item.TypeId = some curr)
    (hprice : float64.lt float64.zero curr.Price = true)
    (hq0 : 0 < item.Quantity) (hq1 : 32767 * item.Quantity < 2147483648)
    (hneg : rOrig < 0) (h0 : 0 ≤ rCopy) (h1 : rCopy < 32767) :
    float64.lt
        (checkSuitableLoop registry (pre ++ { item with Runs := rOrig } :: post)
          excluded contractBound).2
        (checkSuitableLoop registry (pre ++ { item with Runs := rCopy } :: post)
          excluded contractBound).2 = false ∧
      wrapInt32 (effectiveRuns rCopy * item.Quantity) <
        wrapInt32 (effectiveRuns rOrig * item.Quantity) := by
  constructor
  · apply lt_false_of_dominates
    apply checkSuitableLoop_prefix_dominates
    intro b
    have hacc := accumulate_original_dominates registry curr item rOrig rCopy b hreg hprice
      hq0 hq1 hneg h0 h1
    unfold checkSuitableLoop
    cases item.IsIncluded with
    | false => simpa using hacc
    | true =>
      simp only [Bool.not_true, Bool.false_eq_true, if_false]
      exact checkSuitableLoop_dominates registry post excluded _ _ hacc
  · have hmul : rCopy * item.Quantity < 32767 * item.Quantity :=
      Int.mul_lt_mul_of_pos_right h1 hq0
    have hnn : 0 ≤ rCopy * item.Quantity := Int.mul_nonneg h0 (le_of_lt hq0)
    have heO : effectiveRuns rOrig = 32767 := by
      unfold effectiveRuns; rw [if_pos hneg]; rfl
    have heC : effectiveRuns rCopy = rCopy := by
      unfold effectiveRuns; rw [if_neg (not_lt.mpr h0)]
    rw [heO, heC, wrapInt32_of_fits _ (by omega) (by omega),
      wrapInt32_of_fits _ (by omega) (by omega)]
    exact hmul

/-- An instance of the amended C7: between two included line items, the original of type
123 with quantity 2 against its copy with 10 runs; here the original accumulates strictly
more. -/
theorem original_exceeds_copy_witness :
    (float64.lt
        (checkSuitableLoop testRegistry
          ([testItem 1 true 1 1 321] ++ { testItem 2 true 0 2 123 with Runs := -1 } ::
            [testItem 3 true 2 1 321]) false float64.zero).2
        (checkSuitableLoop testRegistry
          ([testItem 1 true 1 1 321] ++ { testItem 2 true 0 2 123 with Runs := 10 } ::
            [testItem 3 true 2 1 321]) false float64.zero).2 = false ∧
      wrapInt32 (effectiveRuns 10 * (testItem 2 true 0 2 123).Quantity) <
        wrapInt32 (effectiveRuns (-1) * (testItem 2 true 0 2 123).Quantity)) ∧
    float64.lt
        (checkSuitableLoop testRegistry
          ([testItem 1 true 1 1 321] ++ { testItem 2 true 0 2 123 with Runs := 10 } ::
            [testItem 3 true 2 1 321]) false float64.zero).2
        (checkSuitableLoop testRegistry
          ([testItem 1 true 1 1 321] ++ { testItem 2 true 0 2 123 with Runs := -1 } ::
            [testItem 3 true 2 1 321]) false float64.zero).2 = true :=
  ⟨original_exceeds_copy testRegistry
      { TypeId := 123, Price := float64.ofRat (4099 / 100), TypeName := "Foo" }
      (testItem 2 true 0 2 123) (-1) 10 [testItem 1 true 1 1 321] [testItem 3 true 2 1 321]
      false float64.zero rfl (by decide!) (by decide) (by decide) (by decide) (by decide)
      (by decide),
    by decide!⟩

/-! ## The reference value: 32-bit products and watched items -/

/-- C15 at its failing input: with the watch-list `123 → 1`, the included line item with
`Runs = 65536` and `Quantity = 65536` has the mathematical product `4294967296`, but
`checkSuitable` accumulates 0 (the `int32` product wraps) and rejects the listing at
price 0; for an original (`Runs = -1`) with quantity 65539 it accumulates a negative
value. -/
theorem accumulate_wraps_failing :
    (checkSuitableLoop unitRegistry [testItem 1 true 65536 65536 123] false
        float64.zero).2 = float64.zero ∧
      referenceValue unitRegistry [testItem 1 true 65536 65536 123] = 4294967296 ∧
      checkSuitable unitRegistry (testContract 144 0 itemExchange)
        [testItem 1 true 65536 65536 123] = false ∧
      (checkSuitableLoop unitRegistry [testItem 1 true (-1) 65539 123] false
        float64.zero).2 = float64.ofInt (-2147450883) ∧
      referenceValue unitRegistry [testItem 1 true (-1) 65539 123] = 2147516413 := by
  decide!

theorem effectiveRuns_nonneg (runs : Int) : 0 ≤ effectiveRuns runs := by
  unfold effectiveRuns maxInt16
  split <;> omega

theorem effectiveRuns_pos (runs : Int) (h : runs ≠ 0) : 0 < effectiveRuns runs := by
  unfold effectiveRuns maxInt16
  split <;> omega

theorem fin_nonneg_of_not_lt (p : float64) (hfin : p.isFinite = true)
    (hlt : float64.lt p float64.zero = false) : ∃ m k, p = fin m k ∧ 0 ≤ m := by
  cases p with
  | nan => simp [float64.isFinite] at hfin
  | inf s => simp [float64.isFinite] at hfin
  | fin m k =>
    refine ⟨m, k, rfl, ?_⟩
    simp only [float64.lt, float64.zero, decide_eq_false_iff_not, not_lt] at hlt
    by_contra hn
    have hm : m < 0 := by omega
    have : m * 2 ^ k < 0 := mul_neg_of_neg_of_pos hm (by positivity)
    omega

theorem referenceValue64_step_nonnegF (registry : Int → Option registryItem)
    (item : contractItem) (b : float64)
    (hfit : -2147483648 ≤ effectiveRuns item.Runs * item.Quantity ∧
      effectiveRuns item.Runs * item.Quantity < 2147483648)
    (hnonneg : ∀ curr, registry item.TypeId = some curr →
      curr.Price.isFinite = true ∧ float64.lt curr.Price float64.zero = false ∧
        0 ≤ item.Quantity)
    (hb : nonnegF b) :
    nonnegF (match registry item.TypeId with
      | some curr =>
        float64.add b
          (float64.mul curr.Price (float64.ofInt (effectiveRuns item.Runs * item.Quantity)))
      | none => b) := by
  cases hreg : registry item.TypeId with
  | none => exact hb
  | some curr =>
    obtain ⟨hfin, hlt, hq⟩ := hnonneg curr hreg
    obtain ⟨mp, kp, hp, hmp⟩ := fin_nonneg_of_not_lt curr.Price hfin hlt
    have hK : 0 ≤ effectiveRuns item.Runs * item.Quantity :=
      Int.mul_nonneg (effectiveRuns_nonneg _) hq
    obtain ⟨ma, ka, ha, hma, _⟩ := ofInt_int32 _ hK (by omega)
    simp only
    rw [hp, ha]
    exact add_nonnegF _ _ hb (mul_nonnegF mp kp ma ka hmp hma)

theorem referenceValue64_step_posF (registry : Int → Option registryItem)
    (item : contractItem) (curr : registryItem) (b : float64)
    (hfit : -2147483648 ≤ effectiveRuns item.Runs * item.Quantity ∧
      effectiveRuns item.Runs * item.Quantity < 2147483648)
    (hreg : registry item.TypeId = some curr)
    (hfin : curr.Price.isFinite = true)
    (hpos : float64.lt float64.zero curr.Price = true)
    (hq : 0 < item.Quantity) (hr : item.Runs ≠ 0)
    (hb : nonnegF b) :
    posF (match registry item.TypeId with
      | some curr =>
        float64.add b
          (float64.mul curr.Price (float64.ofInt (effectiveRuns item.Runs * item.Quantity)))
      | none => b) := by
  have hK : 1 ≤ effectiveRuns item.Runs * item.Quantity := by
    have := Int.mul_pos (effectiveRuns_pos _ hr) hq
    omega
  obtain ⟨ma, ka, ha, _, hone⟩ := ofInt_int32_pos _ hK (by omega)
  have hp : ∃ mp kp, curr.Price = fin mp kp ∧ 0 < mp := by
    rcases posF_of_lt_zero _ hpos with h | h
    · rw [h] at hfin
      simp [float64.isFinite] at hfin
    · exact h
  obtain ⟨mp, kp, hp, hmp⟩ := hp
  rw [hreg]
  simp only
  rw [hp, ha]
  exact add_posF_right _ _ hb (mul_posF mp kp ma ka hmp hone)

theorem referenceValue64_nonnegF (registry : Int → Option registryItem)
    (items : List contractItem) (b : float64)
    (hfit : ∀ item ∈ items, -2147483648 ≤ effectiveRuns item.Runs * item.Quantity ∧
      effectiveRuns item.Runs * item.Quantity < 2147483648)
    (hnonneg : ∀ item ∈ items, ∀ curr, registry item.TypeId = some curr →
      curr.Price.isFinite = true ∧ float64.lt curr.Price float64.zero = false ∧
        0 ≤ item.Quantity)
    (hb : nonnegF b) : nonnegF (referenceValue64 registry items b) := by
  induction items generalizing b with
  | nil => exact hb
  | cons a rest ih =>
    unfold referenceValue64
    exact ih _ (fun item hm => hfit item (List.mem_cons_of_mem _ hm))
      (fun item hm => hnonneg item (List.mem_cons_of_mem _ hm))
      (referenceValue64_step_nonnegF registry a b (hfit a (List.mem_cons_self _ _))
        (hnonneg a (List.mem_cons_self _ _)) hb)

theorem referenceValue64_posF_of_posF (registry : Int → Option registryItem)
    (items : List contractItem) (b : float64)
    (hfit : ∀ item ∈ items, -2147483648 ≤ effectiveRuns item.Runs * item.Quantity ∧
      effectiveRuns item.Runs * item.Quantity < 2147483648)
    (hnonneg : ∀ item ∈ items, ∀ curr, registry item.TypeId = some curr →
      curr.Price.isFinite = true ∧ float64.lt curr.Price float64.zero = false ∧
        0 ≤ item.Quantity)
    (hb : posF b) : posF (referenceValue64 registry items b) := by
  induction items generalizing b with
  | nil => exact hb
  | cons a rest ih =>
    unfold referenceValue64
    apply ih _ (fun item hm => hfit item (List.mem_cons_of_mem _ hm))
      (fun item hm => hnonneg item (List.mem_cons_of_mem _ hm))
    cases hreg : registry a.TypeId with
    | none => exact hb
    | some curr =>
      obtain ⟨hfin, hlt, hq⟩ := hnonneg a (List.mem_cons_self _ _) curr hreg
      obtain ⟨mp, kp, hp, hmp⟩ := fin_nonneg_of_not_lt curr.Price hfin hlt
      have hf := hfit a (List.mem_cons_self _ _)
      have hK : 0 ≤ effectiveRuns a.Runs * a.Quantity :=
        Int.mul_nonneg (effectiveRuns_nonneg _) hq
      obtain ⟨ma, ka, ha, hma, _⟩ := ofInt_int32 _ hK (by omega)
      simp only
      rw [hp, ha]
      exact add_posF_left _ _ hb (mul_nonnegF mp kp ma ka hmp hma)

theorem referenceValue64_posF (registry : Int → Option registryItem)
    (items : List contractItem) (b : float64)
    (hfit : ∀ item ∈ items, -2147483648 ≤ effectiveRuns item.Runs * item.Quantity ∧
      effectiveRuns item.Runs * item.Quantity < 2147483648)
    (hnonneg : ∀ item ∈ items, ∀ curr, registry item.TypeId = some curr →
      curr.Price.isFinite = true ∧ float64.lt curr.Price float64.zero = false ∧
        0 ≤ item.Quantity)
    (hfound : ∃ item ∈ items, ∃ curr, registry item.TypeId = some curr ∧
      float64.lt float64.zero curr.Price = true ∧ 0 < item.Quantity ∧ item.Runs ≠ 0)
    (hb : nonnegF b) : posF (referenceValue64 registry items b) := by
  induction items generalizing b with
  | nil =>
    obtain ⟨item, hm, _⟩ := hfound
    cases hm
  | cons a rest ih =>
    have hfr : ∀ item ∈ rest, -2147483648 ≤ effectiveRuns item.Runs * item.Quantity ∧
        effectiveRuns item.Runs * item.Quantity < 2147483648 :=
      fun item hm => hfit item (List.mem_cons_of_mem _ hm)
    have hnr : ∀ item ∈ rest, ∀ curr, registry item.TypeId = some curr →
        curr.Price.isFinite = true ∧ float64.lt curr.Price float64.zero = false ∧
          0 ≤ item.Quantity :=
      fun item hm => hnonneg item (List.mem_cons_of_mem _ hm)
    obtain ⟨item, hm, curr, hreg, hp, hq, hr⟩ := hfound
    unfold referenceValue64
    rcases List.mem_cons.mp hm with rfl | hm
    · exact referenceValue64_posF_of_posF registry rest _ hfr hnr
        (referenceValue64_step_posF registry item curr b (hfit item (List.mem_cons_self _ _))
          hreg (hnonneg item (List.mem_cons_self _ _) curr hreg).1 hp hq hr hb)
    · exact ih _ hfr hnr ⟨item, hm, curr, hreg, hp, hq, hr⟩
        (referenceValue64_step_nonnegF registry a b (hfit a (List.mem_cons_self _ _))
          (hnonneg a (List.mem_cons_self _ _)) hb)

/-- C16 fails as stated: with the watch-list `123 → 1`, an included watched line item
with quantity 1 and run count 0 accumulates the reference value 0, so the listing at
price 0 does not match; a second watched line item with quantity `-5` brings the
reference value to `-4`; and with the watch-list `123 → 2⁻⁷⁰` and the listing price 1000
the accumulated reference value is positive and the exact difference is below 0.001, but
the `float64` difference is not below the `float64` constant 0.001 and the listing does
not match. -/
theorem watched_item_found_counterexample :
    (checkSuitableLoop unitRegistry [testItem 1 true 0 1 123] false float64.zero).2 =
        float64.zero ∧
      checkSuitable unitRegistry (testContract 144 0 itemExchange)
        [testItem 1 true 0 1 123] = false ∧
      (checkSuitableLoop unitRegistry
        [testItem 1 true 1 1 123, testItem 2 true 1 (-5) 123] false float64.zero).2 =
          float64.ofInt (-4) ∧
      (float64.lt float64.zero
          (checkSuitableLoop (priceRegistry (1 / 2 ^ 70)) [testItem 1 true 1 1 123] false
            float64.zero).2 = true ∧
        (testContract 144 1000 itemExchange).Price.toRat / 1000000 -
            (checkSuitableLoop (priceRegistry (1 / 2 ^ 70)) [testItem 1 true 1 1 123] false
              float64.zero).2.toRat < 1 / 1000 ∧
        checkSuitable (priceRegistry (1 / 2 ^ 70)) (testContract 144 1000 itemExchange)
          [testItem 1 true 1 1 123] = false) := by
  decide!

/-- C16 (amended): for line items that are all included, whose products
`effective_runs × quantity` fit in a signed 32-bit integer and whose watched entries have
a finite, non-negative reference price and a non-negative quantity, if some line item is
watched with a positive reference price, a positive quantity and a run count other than 0,
then the reference value accumulated by `checkSuitable` is positive, and the listing
matches exactly when the price divided by 1000000 minus the reference value, computed in
`float64`, is below the `float64` constant 0.001. -/
theorem watched_item_found (registry : Int → Option registryItem) (c : contract)
    (items : List contractItem)
    (hinc : ∀ item ∈ items, item.IsIncluded = true)
    (hfit : ∀ item ∈ items, -2147483648 ≤ effectiveRuns item.Runs * item.Quantity ∧
      effectiveRuns item.Runs * item.Quantity < 2147483648)
    (hnonneg : ∀ item ∈ items, ∀ curr, registry item.TypeId = some curr →
      curr.Price.isFinite = true ∧ float64.lt curr.Price float64.zero = false ∧
        0 ≤ item.Quantity)
    (hfound : ∃ item ∈ items, ∃ curr, registry item.TypeId = some curr ∧
      float64.lt float64.zero curr.Price = true ∧ 0 < item.Quantity ∧ item.Runs ≠ 0) :
    float64.lt float64.zero (checkSuitableLoop registry items false float64.zero).2 = true ∧
      (checkSuitable registry c items = true ↔
        float64.lt
          (float64.sub (float64.div c.Price million)
            (checkSuitableLoop registry items false float64.zero).2) thousandth = true) := by
  have hloop := checkSuitableLoop_included registry items hinc hfit false float64.zero
  have hpos := lt_zero_of_posF _
    (referenceValue64_posF registry items float64.zero hfit hnonneg hfound
      (Or.inr ⟨0, 0, rfl, le_refl 0⟩))
  unfold checkSuitable
  rw [hloop]
  simp only [hpos, Bool.not_false, Bool.true_and]
  trivial

/-- The case `multicount` of `Test_checkSuitable` as an instance of the amended C16. -/
theorem watched_item_found_witness :
    float64.lt float64.zero
        (checkSuitableLoop testRegistry multicountItems false float64.zero).2 = true ∧
      (checkSuitable testRegistry (testContract 144 (47000000022 / 25) itemExchange)
          multicountItems = true ↔
        float64.lt
          (float64.sub
            (float64.div (testContract 144 (47000000022 / 25) itemExchange).Price million)
            (checkSuitableLoop testRegistry multicountItems false float64.zero).2)
          thousandth = true) ∧
      checkSuitable testRegistry (testContract 144 (47000000022 / 25) itemExchange)
        multicountItems = true :=
  have h := watched_item_found testRegistry
    (testContract 144 (47000000022 / 25) itemExchange) multicountItems (by decide)
    (by decide) (by decide!)
    ⟨testItem 1 true 1 2 123, by simp [multicountItems],
      { TypeId := 123, Price := float64.ofRat (4099 / 100), TypeName := "Foo" }, rfl,
      by decide!, by decide, by decide⟩
  ⟨h.1, h.2, by decide!⟩

/-! ## Properties of the dedup store -/

theorem isExistsContractCheckDB_iff (db : List contract) (c : contract) :
    isExistsContractCheckDB db c = true ↔ ∃ row ∈ db, row.Id = c.Id := by
  unfold isExistsContractCheckDB txnFirst
  rw [List.find?_isSome]
  simp

theorem isExistsContractCheckDB_congr (db : List contract) (c1 c2 : contract)
    (h : c1.Id = c2.Id) : isExistsContractCheckDB db c1 = isExistsContractCheckDB db c2 := by
  unfold isExistsContractCheckDB
  rw [h]

theorem isExists_txnInsert (db : List contract) (c x : contract) :
    isExistsContractCheckDB (txnInsert db c) x = true ↔
      (x.Id = c.Id ∨ isExistsContractCheckDB db x = true) := by
  rw [isExistsContractCheckDB_iff, isExistsContractCheckDB_iff]
  unfold txnInsert
  constructor
  · rintro ⟨row, hrow, hid⟩
    rcases List.mem_append.mp hrow with hm | hm
    · exact Or.inr ⟨row, (List.mem_filter.mp hm).1, hid⟩
    · rw [List.mem_singleton] at hm
      subst hm
      exact Or.inl hid.symm
  · rintro (hid | ⟨row, hrow, hid⟩)
    · exact ⟨c, List.mem_append.mpr (Or.inr (List.mem_singleton.mpr rfl)), hid.symm⟩
    · by_cases hc : row.Id = c.Id
      · exact ⟨c, List.mem_append.mpr (Or.inr (List.mem_singleton.mpr rfl)),
          hc.symm.trans hid⟩
      · refine ⟨row, List.mem_append.mpr (Or.inl (List.mem_filter.mpr ⟨hrow, ?_⟩)), hid⟩
        simpa using hc

theorem isExists_after_isNewly (db : List contract) (c x : contract) :
    isExistsContractCheckDB (isNewlyCreatedContractCheckDB db c).2 x = true ↔
      (x.Id = c.Id ∨ isExistsContractCheckDB db x = true) := by
  unfold isNewlyCreatedContractCheckDB
  cases h : isExistsContractCheckDB db c with
  | true =>
    simp only [if_true]
    constructor
    · exact fun hx => Or.inr hx
    · rintro (hid | hx)
      · rw [isExistsContractCheckDB_congr db x c hid]; exact h
      · exact hx
  | false =>
    simp only [Bool.false_eq_true, if_false]
    exact isExists_txnInsert db c x

theorem isNewly_inserted_iff (db : List contract) (c : contract) :
    (isNewlyCreatedContractCheckDB db c).1 = true ↔
      isExistsContractCheckDB db c = false := by
  unfold isNewlyCreatedContractCheckDB
  cases h : isExistsContractCheckDB db c <;> simp

theorem txnInsert_absent (db : List contract) (c : contract)
    (h : c.Id ∉ db.map contract.Id) : txnInsert db c = db ++ [c] := by
  unfold txnInsert
  congr 1
  rw [List.filter_eq_self]
  intro row hrow
  simp only [bne_iff_ne, ne_eq]
  intro hid
  exact h (List.mem_map.mpr ⟨row, hrow, hid⟩)

theorem isExists_iff_mem_ids (db : List contract) (c : contract) :
    isExistsContractCheckDB db c = true ↔ c.Id ∈ db.map contract.Id := by
  rw [isExistsContractCheckDB_iff, List.mem_map]

/-- C9: with the dedup store read as the set of the ids of its rows,
`isExistsContractCheckDB` answers membership of the id; `isNewlyCreatedContractCheckDB`
returns true exactly when the id of the listing was absent before the call, and then the
store after the call is the old store with the listing appended as a row; when the id was
present the store is left as it was; after the call the id is present, the presence of
every other id is unchanged, and a second call with the same id returns false. -/
theorem isNewlyCreatedContractCheckDB_spec (db : List contract) (c : contract) :
    (isExistsContractCheckDB db c = true ↔ c.Id ∈ db.map contract.Id) ∧
      ((isNewlyCreatedContractCheckDB db c).1 = true ↔ c.Id ∉ db.map contract.Id) ∧
      (c.Id ∉ db.map contract.Id → (isNewlyCreatedContractCheckDB db c).2 = db ++ [c]) ∧
      (c.Id ∈ db.map contract.Id → (isNewlyCreatedContractCheckDB db c).2 = db) ∧
      c.Id ∈ (isNewlyCreatedContractCheckDB db c).2.map contract.Id ∧
      isExistsContractCheckDB (isNewlyCreatedContractCheckDB db c).2 c = true ∧
      (∀ id : Int, id ≠ c.Id →
        (id ∈ (isNewlyCreatedContractCheckDB db c).2.map contract.Id ↔
          id ∈ db.map contract.Id)) ∧
      (∀ x : contract, x.Id ≠ c.Id →
        isExistsContractCheckDB (isNewlyCreatedContractCheckDB db c).2 x =
          isExistsContractCheckDB db x) ∧
      (∀ c2 : contract, c2.Id = c.Id →
        (isNewlyCreatedContractCheckDB (isNewlyCreatedContractCheckDB db c).2 c2).1 =
          false) := by
  have hpresent : isExistsContractCheckDB (isNewlyCreatedContractCheckDB db c).2 c = true :=
    (isExists_after_isNewly db c c).mpr (Or.inl rfl)
  have hframe : ∀ x : contract, x.Id ≠ c.Id →
      isExistsContractCheckDB (isNewlyCreatedContractCheckDB db c).2 x =
        isExistsContractCheckDB db x := by
    intro x hx
    have h := isExists_after_isNewly db c x
    cases h1 : isExistsContractCheckDB (isNewlyCreatedContractCheckDB db c).2 x <;>
      cases h2 : isExistsContractCheckDB db x <;> simp_all
  have habsent : c.Id ∉ db.map contract.Id →
      (isNewlyCreatedContractCheckDB db c).2 = db ++ [c] := by
    intro h
    have hex : isExistsContractCheckDB db c = false := by
      cases hh : isExistsContractCheckDB db c with
      | false => rfl
      | true => exact absurd ((isExists_iff_mem_ids db c).mp hh) h
    unfold isNewlyCreatedContractCheckDB
    rw [hex]
    simp only [Bool.false_eq_true, if_false]
    exact txnInsert_absent db c h
  have hkept : c.Id ∈ db.map contract.Id → (isNewlyCreatedContractCheckDB db c).2 = db := by
    intro h
    unfold isNewlyCreatedContractCheckDB
    rw [(isExists_iff_mem_ids db c).mpr h]
    rfl
  refine ⟨isExists_iff_mem_ids db c, ?_, habsent, hkept,
    (isExists_iff_mem_ids _ c).mp hpresent, hpresent, ?_, hframe, ?_⟩
  · rw [isNewly_inserted_iff, ← isExists_iff_mem_ids]
    cases isExistsContractCheckDB db c <;> simp
  · intro id hid
    by_cases hmem : c.Id ∈ db.map contract.Id
    · rw [hkept hmem]
    · rw [habsent hmem]
      simp only [List.map_append, List.map_cons, List.map_nil, List.mem_append,
        List.mem_singleton]
      constructor
      · rintro (h | h)
        · exact h
        · exact absurd h hid
      · exact fun h => Or.inl h
  · intro c2 hc2
    have h2 : isExistsContractCheckDB (isNewlyCreatedContractCheckDB db c).2 c2 = true := by
      rw [isExistsContractCheckDB_congr _ c2 c hc2]; exact hpresent
    unfold isNewlyCreatedContractCheckDB at h2 ⊢
    simp only [h2, if_true]

/-- An instance of C9: listing 144 on a store that holds listing 7; the call returns true
and appends the row, a second call with the id 144 returns false and leaves the store. -/
theorem isNewlyCreatedContractCheckDB_spec_witness :
    isNewlyCreatedContractCheckDB [testContract 7 0 itemExchange]
        (testContract 144 5 itemExchange) =
      (true, [testContract 7 0 itemExchange, testContract 144 5 itemExchange]) ∧
    isNewlyCreatedContractCheckDB
        [testContract 7 0 itemExchange, testContract 144 5 itemExchange]
        (testContract 144 9 itemExchange) =
      (false, [testContract 7 0 itemExchange, testContract 144 5 itemExchange]) ∧
    ((testContract 144 5 itemExchange).Id ∉
        [testContract 7 0 itemExchange].map contract.Id →
      (isNewlyCreatedContractCheckDB [testContract 7 0 itemExchange]
        (testContract 144 5 itemExchange)).2 =
        [testContract 7 0 itemExchange] ++ [testContract 144 5 itemExchange]) ∧
    (isNewlyCreatedContractCheckDB (isNewlyCreatedContractCheckDB
        [testContract 7 0 itemExchange] (testContract 144 5 itemExchange)).2
          (testContract 144 9 itemExchange)).1 = false :=
  have h := isNewlyCreatedContractCheckDB_spec [testContract 7 0 itemExchange]
    (testContract 144 5 itemExchange)
  ⟨by decide!, by decide!, h.2.2.1, h.2.2.2.2.2.2.2.2 (testContract 144 9 itemExchange) rfl⟩

/-! ## Properties of the evaluation loop -/

theorem monitorTickLoop_invariant (mon : contract → List registrySignal)
    (checkContract : Bool) (db0 : List contract) (conCh : List contract)
    (st : monitorState)
    (hnodup : (st.checked.map contract.Id).Nodup)
    (hseen : ∀ c ∈ st.checked, isExistsContractCheckDB st.db c = true)
    (hfresh : ∀ c ∈ st.checked, isExistsContractCheckDB db0 c = false)
    (hmono : ∀ x : contract, isExistsContractCheckDB db0 x = true →
      isExistsContractCheckDB st.db x = true) :
    ((monitorTickLoop mon checkContract conCh st).checked.map contract.Id).Nodup ∧
      (∀ c ∈ (monitorTickLoop mon checkContract conCh st).checked,
        isExistsContractCheckDB (monitorTickLoop mon checkContract conCh st).db c = true) ∧
      (∀ c ∈ (monitorTickLoop mon checkContract conCh st).checked,
        isExistsContractCheckDB db0 c = false) ∧
      (∀ x : contract, isExistsContractCheckDB db0 x = true →
        isExistsContractCheckDB (monitorTickLoop mon checkContract conCh st).db x = true) := by
  induction conCh generalizing st with
  | nil => exact ⟨hnodup, hseen, hfresh, hmono⟩
  | cons c rest ih =>
    unfold monitorTickLoop
    by_cases hpub : isPublicItemExchangeContract c = true
    · rw [if_pos hpub]
      have hgrow : ∀ x : contract, isExistsContractCheckDB st.db x = true →
          isExistsContractCheckDB (isNewlyCreatedContractCheckDB st.db c).2 x = true :=
        fun x hx => (isExists_after_isNewly st.db c x).mpr (Or.inr hx)
      by_cases hnew : ((isNewlyCreatedContractCheckDB st.db c).1 && checkContract) = true
      · simp only [hnew, if_true]
        have habs : isExistsContractCheckDB st.db c = false := by
          have h1 : (isNewlyCreatedContractCheckDB st.db c).1 = true := by
            cases h : (isNewlyCreatedContractCheckDB st.db c).1 with
            | true => rfl
            | false => rw [h] at hnew; simp at hnew
          exact (isNewly_inserted_iff st.db c).mp h1
        apply ih
        · show ((st.checked ++ [c]).map contract.Id).Nodup
          rw [List.map_append, List.nodup_append]
          refine ⟨hnodup, List.nodup_singleton _, ?_⟩
          intro a ha hb
          simp only [List.map_cons, List.map_nil, List.mem_singleton] at hb
          obtain ⟨y, hy, hya⟩ := List.mem_map.mp ha
          have h1 := hseen y hy
          rw [isExistsContractCheckDB_congr st.db y c (hya.trans hb), habs] at h1
          cases h1
        · intro x hx
          show isExistsContractCheckDB (isNewlyCreatedContractCheckDB st.db c).2 x = true
          rcases List.mem_append.mp hx with hx | hx
          · exact hgrow x (hseen x hx)
          · rw [List.mem_singleton] at hx
            subst hx
            exact (isExists_after_isNewly st.db x x).mpr (Or.inl rfl)
        · intro x hx
          rcases List.mem_append.mp hx with hx | hx
          · exact hfresh x hx
          · rw [List.mem_singleton] at hx
            subst hx
            cases h : isExistsContractCheckDB db0 x with
            | false => rfl
            | true => rw [hmono x h] at habs; cases habs
        · exact fun x hx => hgrow x (hmono x hx)
      · simp only [hnew, if_false, Bool.false_eq_true]
        apply ih
        · exact hnodup
        · exact fun x hx => hgrow x (hseen x hx)
        · exact hfresh
        · exact fun x hx => hgrow x (hmono x hx)
    · rw [if_neg hpub]
      exact ih st hnodup hseen hfresh hmono

theorem monitorTicks_invariant (mon : contract → List registrySignal)
    (db0 : List contract) (cycles : List (Bool × List contract)) (st : monitorState)
    (hnodup : (st.checked.map contract.Id).Nodup)
    (hseen : ∀ c ∈ st.checked, isExistsContractCheckDB st.db c = true)
    (hfresh : ∀ c ∈ st.checked, isExistsContractCheckDB db0 c = false)
    (hmono : ∀ x : contract, isExistsContractCheckDB db0 x = true →
      isExistsContractCheckDB st.db x = true) :
    ((monitorTicks mon cycles st).checked.map contract.Id).Nodup ∧
      (∀ c ∈ (monitorTicks mon cycles st).checked,
        isExistsContractCheckDB db0 c = false) := by
  induction cycles generalizing st with
  | nil => exact ⟨hnodup, hfresh⟩
  | cons cycle rest ih =>
    unfold monitorTicks
    obtain ⟨h1, h2, h3, h4⟩ :=
      monitorTickLoop_invariant mon cycle.1 db0 cycle.2 st hnodup hseen hfresh hmono
    exact ih _ h1 h2 h3 h4

theorem monitorTickLoop_seen (mon : contract → List registrySignal) (checkContract : Bool)
    (c : contract) (rest : List contract) (st : monitorState)
    (h : isExistsContractCheckDB st.db c = true) :
    monitorTickLoop mon checkContract (c :: rest) st =
      monitorTickLoop mon checkContract rest st := by
  have hr : isNewlyCreatedContractCheckDB st.db c = (false, st.db) := by
    unfold isNewlyCreatedContractCheckDB
    rw [if_pos h]
  conv_lhs => unfold monitorTickLoop
  rw [hr]
  simp

/-- C3: over any number of `monitorTick` cycles on one dedup store, started from any
store, the listings passed to `monCheckContract` have pairwise different ids and none
of them had its id in the initial store; and a listing whose id is in the store when
it arrives leaves the state as it is: it is not passed to `monCheckContract`. -/
theorem monCheckContract_at_most_once (mon : contract → List registrySignal)
    (cycles : List (Bool × List contract)) (db0 : List contract) :
    ((monitorTicks mon cycles { db := db0, checked := [], chSignal := [] }).checked.map
        contract.Id).Nodup ∧
      (∀ c ∈ (monitorTicks mon cycles { db := db0, checked := [], chSignal := [] }).checked,
        isExistsContractCheckDB db0 c = false) ∧
      (∀ (st : monitorState) (checkContract : Bool) (c : contract),
        isExistsContractCheckDB st.db c = true →
          monitorTickLoop mon checkContract [c] st = st) := by
  obtain ⟨h1, h2⟩ := monitorTicks_invariant mon db0 cycles
    { db := db0, checked := [], chSignal := [] } (by simp) (by simp) (by simp)
    (fun x hx => hx)
  refine ⟨h1, h2, ?_⟩
  intro st checkContract c h
  rw [monitorTickLoop_seen mon checkContract c [] st h]
  rfl

/-- An instance of C3: three cycles on a store that holds listing 9; only the listings 3 and 4 are passed to `monCheckContract`, once each. -/
theorem monCheckContract_at_most_once_witness :
    (monitorTicks (fun _ => [])
        [(false, [testContract 1 0 itemExchange, testContract 2 0 itemExchange]),
          (true, [testContract 1 0 itemExchange, testContract 3 0 itemExchange,
            testContract 3 0 itemExchange]),
          (true, [testContract 3 0 itemExchange, testContract 9 0 itemExchange,
            testContract 4 0 itemExchange])]
        { db := [testContract 9 0 itemExchange], checked := [], chSignal := [] }).checked =
      [testContract 3 0 itemExchange, testContract 4 0 itemExchange] ∧
    ((monitorTicks (fun _ => [])
        [(false, [testContract 1 0 itemExchange, testContract 2 0 itemExchange]),
          (true, [testContract 1 0 itemExchange, testContract 3 0 itemExchange,
            testContract 3 0 itemExchange]),
          (true, [testContract 3 0 itemExchange, testContract 9 0 itemExchange,
            testContract 4 0 itemExchange])]
        { db := [testContract 9 0 itemExchange], checked := [], chSignal := [] }).checked.map
      contract.Id).Nodup :=
  ⟨by decide!, (monCheckContract_at_most_once (fun _ => []) _ _).1⟩

/-- C5 fails as stated: after the loop has processed a courier listing, or an item
exchange for a corporation, on an empty store, the id of the listing is not in the
store. -/
theorem nonqualifying_recorded_counterexample :
    isExistsContractCheckDB
        (monitorTickLoop (fun _ => []) true [testContract 7 0 "courier"]
          { db := [], checked := [], chSignal := [] }).db
        (testContract 7 0 "courier") = false ∧
      isExistsContractCheckDB
        (monitorTickLoop (fun _ => []) true
          [{ testContract 8 0 itemExchange with ForCorporation := true }]
          { db := [], checked := [], chSignal := [] }).db
        { testContract 8 0 itemExchange with ForCorporation := true } = false := by
  decide

/-- C5 (amended): a listing that is not a qualifying listing (its type is not
`item_exchange`, or it is for a corporation) is skipped by the evaluation loop: it is not
passed to `monCheckContract` and the dedup store stays as it was, so that afterwards
`isExistsContractCheckDB` answers for it what it answered before. -/
theorem monitorTickLoop_nonqualifying (mon : contract → List registrySignal)
    (checkContract : Bool) (c : contract) (rest : List contract) (st : monitorState)
    (h : c.ContractType ≠ itemExchange ∨ c.ForCorporation = true) :
    monitorTickLoop mon checkContract (c :: rest) st =
        monitorTickLoop mon checkContract rest st ∧
      monitorTickLoop mon checkContract [c] st = st ∧
      isExistsContractCheckDB (monitorTickLoop mon checkContract [c] st).db c =
        isExistsContractCheckDB st.db c := by
  have hpub : isPublicItemExchangeContract c = false := by
    unfold isPublicItemExchangeContract
    rcases h with h | h
    · simp [h]
    · simp [h]
  have hstep : ∀ l : List contract, monitorTickLoop mon checkContract (c :: l) st =
      monitorTickLoop mon checkContract l st := by
    intro l
    conv_lhs => unfold monitorTickLoop
    simp [hpub]
  have hone : monitorTickLoop mon checkContract [c] st = st := by
    rw [hstep []]; rfl
  exact ⟨hstep rest, hone, by rw [hone]⟩

/-- An instance of the amended C5: a courier listing leaves a store that holds listing 5 as it is. -/
theorem monitorTickLoop_nonqualifying_witness :
    ((testContract 7 0 "courier").ContractType ≠ itemExchange ∨
        (testContract 7 0 "courier").ForCorporation = true) ∧
      monitorTickLoop (fun _ => []) true [testContract 7 0 "courier"]
        { db := [testContract 5 0 itemExchange], checked := [], chSignal := [] } =
        { db := [testContract 5 0 itemExchange], checked := [], chSignal := [] } :=
  ⟨Or.inl (by decide),
    (monitorTickLoop_nonqualifying (fun _ => []) true (testContract 7 0 "courier") []
      { db := [testContract 5 0 itemExchange], checked := [], chSignal := [] }
      (Or.inl (by decide))).2.1⟩

/-! ## Properties of the producer -/

theorem loadAllContractsFrom_error (eve : eveConnector) (regionId : String)
    (fuel page : Nat) (err : GoError)
    (h : eve.getContracts regionId page = .error err) (hne : err ≠ .EOF) :
    loadAllContractsFrom eve regionId (fuel + 1) page =
      .fetch page :: .sendErr err :: .backoff ::
        loadAllContractsFrom eve regionId fuel (page + 1) := by
  conv_lhs => unfold loadAllContractsFrom
  rw [h]
  cases err with
  | EOF => exact absurd rfl hne
  | other msg => rfl

theorem loadAllContractsFrom_head (eve : eveConnector) (regionId : String)
    (fuel page : Nat) :
    (loadAllContractsFrom eve regionId (fuel + 1) page).head? = some (.fetch page) := by
  unfold loadAllContractsFrom
  cases h : eve.getContracts regionId page with
  | ok data => rfl
  | error err => cases err <;> rfl

theorem requestedPages_append (l1 l2 : List producerEvent) :
    requestedPages (l1 ++ l2) = requestedPages l1 ++ requestedPages l2 := by
  induction l1 with
  | nil => rfl
  | cons a rest ih => cases a <;> simp [requestedPages, ih]

theorem requestedPages_sendContract (data : List contract) :
    requestedPages (data.map producerEvent.sendContract) = [] := by
  induction data with
  | nil => rfl
  | cons a rest ih => simpa [requestedPages] using ih

theorem loadAllContractsFrom_reach (eve : eveConnector) (regionId : String)
    (k fuel page : Nat)
    (h : ∀ p, page ≤ p → p < page + k → eve.getContracts regionId p ≠ .error .EOF) :
    ∃ pre, loadAllContractsFrom eve regionId (k + fuel) page =
        pre ++ loadAllContractsFrom eve regionId fuel (page + k) ∧
      requestedPages pre = List.range' page k := by
  induction k generalizing page with
  | zero => exact ⟨[], by simp, by simp [requestedPages]⟩
  | succ k ih =>
    obtain ⟨pre, hpre, hreq⟩ := ih (page + 1) (fun p h1 h2 => h p (by omega) (by omega))
    have hk : k + 1 + fuel = (k + fuel) + 1 := by omega
    have hp : page + 1 + k = page + (k + 1) := by omega
    rw [hk]
    rw [hp] at hpre
    have hne := h page (le_refl _) (by omega)
    conv => enter [1, pre, 1, 1]; unfold loadAllContractsFrom
    cases hg : eve.getContracts regionId page with
    | ok data =>
      refine ⟨.fetch page :: (data.map producerEvent.sendContract ++ pre), ?_, ?_⟩
      · simp [hpre]
      · simp [requestedPages, requestedPages_append, requestedPages_sendContract, hreq,
          List.range'_succ]
    | error err =>
      cases err with
      | EOF => exact absurd hg hne
      | other msg =>
        refine ⟨.fetch page :: .sendErr (.other msg) :: .backoff :: pre, ?_, ?_⟩
        · simp [hpre]
        · simp [requestedPages, hreq, List.range'_succ]

/-- C2 fails as stated: when the fetch of page 1 fails with `500 Internal Server Error`
and every other page reports `io.EOF`, the producer sends the error, waits, and then
requests page 2, not page 1 again. -/
theorem loadAllContracts_retry_counterexample :
    loadAllContracts
        { getContracts := fun _ page =>
            if page = 1 then .error (.other "500 Internal Server Error") else .error .EOF,
          getContractItems := fun _ _ => .error .EOF } "10000002" 5 =
      [.fetch 1, .sendErr (.other "500 Internal Server Error"), .backoff, .fetch 2,
        .closed] := by
  decide

theorem requestedPages_from_range (eve : eveConnector) (regionId : String)
    (fuel page : Nat) :
    ∃ n, requestedPages (loadAllContractsFrom eve regionId fuel page) =
      List.range' page n := by
  induction fuel generalizing page with
  | zero => exact ⟨0, rfl⟩
  | succ fuel ih =>
    obtain ⟨n, hn⟩ := ih (page + 1)
    unfold loadAllContractsFrom
    cases hg : eve.getContracts regionId page with
    | ok data =>
      refine ⟨n + 1, ?_⟩
      simp [requestedPages, requestedPages_append, requestedPages_sendContract, hn,
        List.range'_succ]
    | error err =>
      cases err with
      | EOF => exact ⟨1, by simp [requestedPages]⟩
      | other msg =>
        refine ⟨n + 1, ?_⟩
        simp [requestedPages, hn, List.range'_succ]

theorem requestedPages_from_ge (eve : eveConnector) (regionId : String)
    (fuel page p : Nat)
    (h : p ∈ requestedPages (loadAllContractsFrom eve regionId fuel page)) : page ≤ p := by
  obtain ⟨n, hn⟩ := requestedPages_from_range eve regionId fuel page
  rw [hn, List.mem_range'_1] at h
  exact h.1

theorem requestedPages_nodup (eve : eveConnector) (regionId : String) (fuel : Nat) :
    (requestedPages (loadAllContracts eve regionId fuel)).Nodup := by
  obtain ⟨n, hn⟩ := requestedPages_from_range eve regionId fuel 1
  unfold loadAllContracts
  rw [hn]
  exact List.nodup_range' 1 n

/-- C2 (amended): when the producer reaches page `N ≥ 1` and the listings fetch for page
`N` returns an error other than `io.EOF`, the producer sends the error on the error
channel, waits, emits no listing for page `N`, and its next fetch requests page
`N + 1`; every later fetch requests a page above `N`, so that page `N` is requested
exactly once in the run, and no run requests a page twice. -/
theorem loadAllContracts_error_advances (eve : eveConnector) (regionId : String)
    (N fuel : Nat) (err : GoError) (hN : 1 ≤ N)
    (hreach : ∀ p, 1 ≤ p → p < N → eve.getContracts regionId p ≠ .error .EOF)
    (herr : eve.getContracts regionId N = .error err) (hne : err ≠ .EOF) :
    (∃ pre, loadAllContracts eve regionId (N + fuel + 1) =
        pre ++ .fetch N :: .sendErr err :: .backoff ::
          loadAllContractsFrom eve regionId (fuel + 1) (N + 1) ∧
      requestedPages pre = List.range' 1 (N - 1) ∧
      (loadAllContractsFrom eve regionId (fuel + 1) (N + 1)).head? =
        some (.fetch (N + 1))) ∧
    (∀ later p, p ∈ requestedPages (loadAllContractsFrom eve regionId later (N + 1)) →
      N < p) ∧
    (requestedPages (loadAllContracts eve regionId (N + fuel + 1))).count N = 1 ∧
    (∀ steps, (requestedPages (loadAllContracts eve regionId steps)).Nodup) := by
  obtain ⟨pre, hpre, hreq⟩ := loadAllContractsFrom_reach eve regionId (N - 1) (fuel + 2) 1
    (fun p h1 h2 => hreach p h1 (by omega))
  have hf : N - 1 + (fuel + 2) = N + fuel + 1 := by omega
  have hp : 1 + (N - 1) = N := by omega
  rw [hf, hp] at hpre
  have hrun : loadAllContracts eve regionId (N + fuel + 1) =
      pre ++ .fetch N :: .sendErr err :: .backoff ::
        loadAllContractsFrom eve regionId (fuel + 1) (N + 1) := by
    unfold loadAllContracts
    rw [hpre, loadAllContractsFrom_error eve regionId (fuel + 1) N err herr hne]
  refine ⟨⟨pre, hrun, hreq, loadAllContractsFrom_head eve regionId fuel (N + 1)⟩, ?_, ?_,
    requestedPages_nodup eve regionId⟩
  · intro later p hp
    have := requestedPages_from_ge eve regionId later (N + 1) p hp
    omega
  · apply List.count_eq_one_of_mem (requestedPages_nodup eve regionId _)
    rw [hrun, requestedPages_append]
    simp [requestedPages]

/-- An instance of the amended C2: page 1 has one listing, page 2 fails with
`502 Bad Gateway`, page 3 reports `io.EOF`; the pages requested are 1, 2, 3. -/
theorem loadAllContracts_error_advances_witness :
    (∃ pre, loadAllContracts flakyEve "10000002" (2 + 1 + 1) =
        pre ++ .fetch 2 :: .sendErr (.other "502 Bad Gateway") :: .backoff ::
          loadAllContractsFrom flakyEve "10000002" (1 + 1) (2 + 1) ∧
      requestedPages pre = List.range' 1 (2 - 1) ∧
      (loadAllContractsFrom flakyEve "10000002" (1 + 1) (2 + 1)).head? =
        some (.fetch (2 + 1))) ∧
    (requestedPages (loadAllContracts flakyEve "10000002" (2 + 1 + 1))).count 2 = 1 ∧
    requestedPages (loadAllContracts flakyEve "10000002" (2 + 1 + 1)) = [1, 2, 3] :=
  have h := loadAllContracts_error_advances flakyEve "10000002" 2 1
    (.other "502 Bad Gateway") (by decide)
    (by intro p h1 h2; have hp : p = 1 := by omega
        subst hp; simp [flakyEve])
    (by simp [flakyEve]) (by simp)
  ⟨h.1, h.2.2.1, by decide⟩

/-! ## Properties of the evaluator -/

theorem loadContractItemsFrom_result (eve : eveConnector) (contractId : Int)
    (fuel page : Nat) (items res : List contractItem) (oerr : Option GoError)
    (h : loadContractItemsFrom eve contractId fuel page items = some (res, oerr)) :
    ∃ k, k < fuel ∧
      (∀ i, i < k → ∃ d, eve.getContractItems contractId (page + i) = .ok d) ∧
      res = items ++ pagesConcatFrom eve contractId page k ∧
      ((oerr = none ∧ eve.getContractItems contractId (page + k) = .error .EOF) ∨
        (∃ e, oerr = some e ∧ e ≠ .EOF ∧
          eve.getContractItems contractId (page + k) = .error e)) := by
  induction fuel generalizing page items with
  | zero => simp [loadContractItemsFrom] at h
  | succ fuel ih =>
    unfold loadContractItemsFrom at h
    cases hg : eve.getContractItems contractId page with
    | error err =>
      rw [hg] at h
      cases err with
      | EOF =>
        simp only [Option.some.injEq, Prod.mk.injEq] at h
        exact ⟨0, by omega, fun i hi => absurd hi (by omega),
          by simp [pagesConcatFrom, h.1], Or.inl ⟨h.2.symm, hg⟩⟩
      | other msg =>
        simp only [Option.some.injEq, Prod.mk.injEq] at h
        exact ⟨0, by omega, fun i hi => absurd hi (by omega),
          by simp [pagesConcatFrom, h.1],
          Or.inr ⟨.other msg, h.2.symm, by simp, hg⟩⟩
    | ok d =>
      rw [hg] at h
      obtain ⟨k, hk, hok, hres, hend⟩ := ih (page + 1) (items ++ d) h
      refine ⟨k + 1, by omega, ?_, ?_, ?_⟩
      · intro i hi
        cases i with
        | zero => exact ⟨d, hg⟩
        | succ j =>
          have := hok j (by omega)
          rwa [show page + 1 + j = page + (j + 1) by omega] at this
      · rw [hres]
        simp [pagesConcatFrom, hg]
      · rwa [show page + 1 + k = page + (k + 1) by omega] at hend

theorem loadContractItemsFrom_pages (eve : eveConnector) (contractId : Int)
    (k fuel page : Nat) (items : List contractItem)
    (hok : ∀ i, i < k → ∃ d, eve.getContractItems contractId (page + i) = .ok d) :
    loadContractItemsFrom eve contractId (k + fuel) page items =
      loadContractItemsFrom eve contractId fuel (page + k)
        (items ++ pagesConcatFrom eve contractId page k) := by
  induction k generalizing page items with
  | zero => simp [pagesConcatFrom]
  | succ k ih =>
    obtain ⟨d, hd⟩ := hok 0 (by omega)
    rw [Nat.add_zero] at hd
    rw [show k + 1 + fuel = (k + fuel) + 1 by omega]
    conv_lhs => unfold loadContractItemsFrom
    rw [hd]
    simp only
    rw [ih (page + 1) (items ++ d) (fun i hi => by
      have := hok (i + 1) (by omega)
      rwa [show page + (i + 1) = page + 1 + i by omega] at this)]
    rw [show page + 1 + k = page + (k + 1) by omega]
    simp [pagesConcatFrom, hd]

theorem loadContractItems_eq (eve : eveConnector) (contractId : Int) (n : Nat)
    (err : GoError)
    (hok : ∀ p, 1 ≤ p → p ≤ n → ∃ d, eve.getContractItems contractId p = .ok d)
    (hend : eve.getContractItems contractId (n + 1) = .error err) (fuel : Nat) :
    loadContractItems eve contractId fuel =
      if n < fuel then
        some (pagesConcat eve contractId n, if err = .EOF then none else some err)
      else none := by
  unfold loadContractItems
  by_cases hlt : n < fuel
  · rw [if_pos hlt]
    obtain ⟨m, rfl⟩ : ∃ m, fuel = n + (m + 1) := ⟨fuel - n - 1, by omega⟩
    rw [loadContractItemsFrom_pages eve contractId n (m + 1) 1 []
      (fun i hi => hok (1 + i) (by omega) (by omega))]
    unfold loadContractItemsFrom
    rw [show 1 + n = n + 1 by omega, hend]
    cases err with
    | EOF => simp [pagesConcat]
    | other msg => simp [pagesConcat]
  · rw [if_neg hlt]
    have h := loadContractItemsFrom_pages eve contractId fuel 0 1 []
      (fun i hi => hok (1 + i) (by omega) (by omega))
    rw [Nat.add_zero] at h
    rw [h]
    rfl

/-- C10: `monCheckContract` sends at most one signal; a signal is sent only when the
line-item pages `1, ..., n` were all fetched without error and page `n + 1` reported
`io.EOF`, it carries the listing and the concatenation of these pages in page order, and
`checkSuitable` is true on exactly that list. When the first response that is not data
is an error other than `io.EOF`, no signal is sent; when it is `io.EOF`, the call
returns (given fuel for `n + 1` fetches) and sends the signal exactly when
`checkSuitable` holds. -/
theorem monCheckContract_signal (c : contract) (eve : eveConnector)
    (registry : Int → Option registryItem) :
    (∀ fuel sigs, monCheckContract c eve registry fuel = some sigs → ∀ sig ∈ sigs,
      ∃ n, n < fuel ∧
        (∀ p, 1 ≤ p → p ≤ n → ∃ d, eve.getContractItems c.Id p = .ok d) ∧
        eve.getContractItems c.Id (n + 1) = .error .EOF ∧
        sigs = [sig] ∧
        sig = { contract := c, items := pagesConcat eve c.Id n } ∧
        checkSuitable registry c (pagesConcat eve c.Id n) = true) ∧
    (∀ n err, (∀ p, 1 ≤ p → p ≤ n → ∃ d, eve.getContractItems c.Id p = .ok d) →
      eve.getContractItems c.Id (n + 1) = .error err → err ≠ .EOF →
      ∀ fuel, monCheckContract c eve registry fuel = if n < fuel then some [] else none) ∧
    (∀ n, (∀ p, 1 ≤ p → p ≤ n → ∃ d, eve.getContractItems c.Id p = .ok d) →
      eve.getContractItems c.Id (n + 1) = .error .EOF →
      ∀ fuel, monCheckContract c eve registry fuel =
        if n < fuel then
          some (if checkSuitable registry c (pagesConcat eve c.Id n) then
            [{ contract := c, items := pagesConcat eve c.Id n }] else [])
        else none) := by
  refine ⟨?_, ?_, ?_⟩
  · intro fuel sigs h sig hsig
    unfold monCheckContract at h
    cases hl : loadContractItems eve c.Id fuel with
    | none => rw [hl] at h; cases h
    | some r =>
      obtain ⟨items, oerr⟩ := r
      rw [hl] at h
      cases oerr with
      | some e =>
        simp only [Option.some.injEq] at h
        subst h
        cases hsig
      | none =>
        simp only at h
        unfold loadContractItems at hl
        obtain ⟨k, hk, hok, hres, hend⟩ :=
          loadContractItemsFrom_result eve c.Id fuel 1 [] items none hl
        have heof : eve.getContractItems c.Id (k + 1) = .error .EOF := by
          rcases hend with ⟨_, h2⟩ | ⟨e, h1, _, _⟩
          · rwa [show 1 + k = k + 1 by omega] at h2
          · cases h1
        have hitems : items = pagesConcat eve c.Id k := by
          rw [hres]; simp [pagesConcat]
        by_cases hs : checkSuitable registry c items = true
        · rw [if_pos hs] at h
          simp only [Option.some.injEq] at h
          subst h
          rw [List.mem_singleton] at hsig
          subst hsig
          refine ⟨k, hk, ?_, heof, rfl, by rw [hitems], by rw [← hitems]; exact hs⟩
          intro p h1 h2
          have := hok (p - 1) (by omega)
          rwa [show 1 + (p - 1) = p by omega] at this
        · rw [if_neg hs] at h
          simp only [Option.some.injEq] at h
          subst h
          cases hsig
  · intro n err hok hend hne fuel
    unfold monCheckContract
    rw [loadContractItems_eq eve c.Id n err hok hend fuel]
    by_cases hlt : n < fuel
    · simp [hlt, hne]
    · simp [hlt]
  · intro n hok hend fuel
    unfold monCheckContract
    rw [loadContractItems_eq eve c.Id n .EOF hok hend fuel]
    by_cases hlt : n < fuel
    · simp only [hlt, if_true]
      by_cases hs : checkSuitable registry c (pagesConcat eve c.Id n) = true
      · simp [hs]
      · simp [hs]
    · simp [hlt]

/-- An instance of C10: the case `with original` of `Test_checkSuitable`, its two line items served on two pages. -/
theorem monCheckContract_signal_witness :
    monCheckContract originalContract testEve testRegistry 5 = some [originalSignal] ∧
    (∀ sig ∈ [originalSignal],
      ∃ n, n < 5 ∧
        (∀ p, 1 ≤ p → p ≤ n → ∃ d, testEve.getContractItems originalContract.Id p = .ok d) ∧
        testEve.getContractItems originalContract.Id (n + 1) = .error .EOF ∧
        [originalSignal] = [sig] ∧
        sig = { contract := originalContract,
                items := pagesConcat testEve originalContract.Id n } ∧
        checkSuitable testRegistry originalContract
          (pagesConcat testEve originalContract.Id n) = true) :=
  have h : monCheckContract originalContract testEve testRegistry 5 =
      some [originalSignal] := by decide!
  ⟨h, (monCheckContract_signal originalContract testEve testRegistry).1 5 _ h⟩

/-! ## Properties of the alert dispatcher -/

theorem alerterLoop_eq_filter (lastTime : Int) (chSignal : List (Int × registrySignal)) :
    alerterLoop lastTime chSignal =
      (chSignal.map Prod.fst).filter (fun now => decide (lastTime + second * 20 < now)) := by
  induction chSignal with
  | nil => rfl
  | cons a rest ih =>
    obtain ⟨now, sig⟩ := a
    unfold alerterLoop
    by_cases h : lastTime + second * 20 < now
    · simp [h, ih]
    · simp [h, ih]

/-- C4 at its failing input: with `lastTime` taken at time 0 and two match signals handled
21 and 22 seconds later, `alerter` calls the notification both times, one second
apart. -/
theorem alerter_cooldown_failing :
    alerter 0 [(21 * second, testSignal 1), (22 * second, testSignal 2)] =
        [21 * second, 22 * second] ∧
      cooldownRespected
        (alerter 0 [(21 * second, testSignal 1), (22 * second, testSignal 2)]) = false := by
  decide

/-! ## Properties of the paginated API client -/

theorem checkResponse_of_lt (resp : httpResponse) (h : resp.StatusCode < 400) :
    checkResponse resp = none := by
  unfold checkResponse
  rw [if_neg (by omega), if_neg (by omega)]

theorem executeQuery_sent {α : Type} (client : httpRequest → Except GoError httpResponse)
    (decode : String → Except GoError α) (path itemId : String) (page : Int)
    (eTagsA : List (Option eTagsMap)) (hlen : eTagsA.length ≤ 1) :
    (executeQuery client decode path itemId page eTagsA).sent =
      some (newRequest path itemId page (loadETag eTagsA (queryKey path itemId page))) := by
  unfold executeQuery
  simp only
  rw [if_neg (by omega)]
  cases client (newRequest path itemId page (loadETag eTagsA (queryKey path itemId page))) with
  | error err => rfl
  | ok resp =>
    simp only
    cases checkResponse resp with
    | some err => rfl
    | none =>
      simp only
      by_cases h200 : resp.StatusCode = 200
      · rw [if_pos h200]
        cases decode resp.Body <;> rfl
      · rw [if_neg h200]

theorem executeQuery_ok_200 {α : Type} (client : httpRequest → Except GoError httpResponse)
    (decode : String → Except GoError α) (path itemId : String) (page : Int)
    (cache : eTagsMap) (resp : httpResponse)
    (hresp : client (newRequest path itemId page
      (loadETag [some cache] (queryKey path itemId page))) = .ok resp)
    (h200 : resp.StatusCode = 200) :
    (executeQuery client decode path itemId page [some cache]).eTagsA =
      [some (cache.store (queryKey path itemId page) resp.etag)] := by
  unfold executeQuery
  simp only
  rw [if_neg (by simp), hresp]
  simp only
  rw [checkResponse_of_lt resp (by omega)]
  simp only
  rw [if_pos h200]
  cases decode resp.Body <;> rfl

theorem digitChar_toNat (d : Nat) (h : d < 10) :
    (Char.ofNat (48 + d)).toNat = 48 + d := by
  interval_cases d <;> rfl

theorem formatNat_chars (n : Nat) (c : Char) (h : c ∈ formatNat n) :
    48 ≤ c.toNat ∧ c.toNat ≤ 57 := by
  unfold formatNat at h
  split at h
  · rw [List.mem_singleton] at h
    subst h
    decide
  · rw [List.mem_map] at h
    obtain ⟨d, hd, rfl⟩ := h
    have hlt : d < 10 := Nat.digits_lt_base (by norm_num) (List.mem_reverse.mp hd)
    rw [digitChar_toNat d hlt]
    omega

theorem formatNat_decode (n : Nat) :
    Nat.ofDigits 10 ((formatNat n).map (fun c => c.toNat - 48)).reverse = n := by
  unfold formatNat
  split
  · next h0 => subst h0; rfl
  · rw [List.map_map]
    have hid : List.map ((fun c => c.toNat - 48) ∘ fun d => Char.ofNat (48 + d))
        (Nat.digits 10 n).reverse = (Nat.digits 10 n).reverse := by
      conv_rhs => rw [← List.map_id (Nat.digits 10 n).reverse]
      apply List.map_congr_left
      intro d hd
      have hlt : d < 10 := Nat.digits_lt_base (by norm_num) (List.mem_reverse.mp hd)
      simp only [Function.comp, id]
      rw [digitChar_toNat d hlt]
      omega
    rw [hid, List.reverse_reverse, Nat.ofDigits_digits]

theorem formatNat_injective (n m : Nat) (h : formatNat n = formatNat m) : n = m := by
  rw [← formatNat_decode n, ← formatNat_decode m, h]

theorem formatInt_injective (z w : Int) (h : formatInt z = formatInt w) : z = w := by
  unfold formatInt at h
  by_cases hz : z < 0 <;> by_cases hw : w < 0
  · rw [if_pos hz, if_pos hw] at h
    have := formatNat_injective _ _ (List.cons.inj h).2
    omega
  · rw [if_pos hz, if_neg hw] at h
    have hm : Char.ofNat 45 ∈ formatNat w.toNat := by rw [← h]; exact List.mem_cons_self _ _
    have := formatNat_chars _ _ hm
    exact absurd this.1 (by decide)
  · rw [if_neg hz, if_pos hw] at h
    have hm : Char.ofNat 45 ∈ formatNat z.toNat := by rw [h]; exact List.mem_cons_self _ _
    have := formatNat_chars _ _ hm
    exact absurd this.1 (by decide)
  · rw [if_neg hz, if_neg hw] at h
    have := formatNat_injective _ _ h
    omega

theorem formatInt_no_question (z : Int) : Char.ofNat 63 ∉ formatInt z := by
  intro h
  unfold formatInt at h
  split at h
  · rcases List.mem_cons.mp h with h45 | hm
    · exact absurd h45 (by decide)
    · exact absurd (formatNat_chars _ _ hm).2 (by decide)
  · exact absurd (formatNat_chars _ _ h).2 (by decide)

theorem append_cons_inj {α : Type} (c : α) (l1 l2 s1 s2 : List α)
    (h1 : c ∉ s1) (h2 : c ∉ s2) (h : l1 ++ c :: s1 = l2 ++ c :: s2) :
    l1 = l2 ∧ s1 = s2 := by
  induction l1 generalizing l2 with
  | nil =>
    cases l2 with
    | nil => exact ⟨rfl, (List.cons.inj h).2⟩
    | cons b l2 =>
      have hs : s1 = l2 ++ c :: s2 := (List.cons.inj h).2
      exact absurd (by rw [hs]; simp) h1
  | cons a l1 ih =>
    cases l2 with
    | nil =>
      have hs : l1 ++ c :: s1 = s2 := (List.cons.inj h).2
      exact absurd (by rw [← hs]; simp) h2
    | cons b l2 =>
      obtain ⟨hab, ht⟩ := List.cons.inj h
      obtain ⟨hl, hs⟩ := ih l2 ht
      exact ⟨by rw [hab, hl], hs⟩

theorem queryKey_eq_iff (path1 itemId1 : String) (page1 : Int) (path2 itemId2 : String)
    (page2 : Int) :
    queryKey path1 itemId1 page1 = queryKey path2 itemId2 page2 ↔
      path1 ++ itemId1 = path2 ++ itemId2 ∧ page1 = page2 := by
  unfold queryKey
  constructor
  · intro h
    have hd := congrArg String.data h
    simp only at hd
    obtain ⟨hl, hs⟩ := append_cons_inj _ _ _ _ _ (formatInt_no_question page1)
      (formatInt_no_question page2) hd
    refine ⟨?_, formatInt_injective _ _ hs⟩
    apply String.ext
    rw [String.data_append, String.data_append]
    exact hl
  · rintro ⟨hp, hg⟩
    have hd := congrArg String.data hp
    rw [String.data_append, String.data_append] at hd
    rw [hd, hg]

theorem executeQuery_frame {α : Type} (client : httpRequest → Except GoError httpResponse)
    (decode : String → Except GoError α) (path itemId : String) (page : Int)
    (cache : eTagsMap) :
    ∃ after, (executeQuery client decode path itemId page [some cache]).eTagsA =
        [some after] ∧
      ∀ key, key ≠ queryKey path itemId page → after key = cache key := by
  unfold executeQuery
  simp only
  rw [if_neg (by simp)]
  cases client (newRequest path itemId page
      (loadETag [some cache] (queryKey path itemId page))) with
  | error err => exact ⟨cache, rfl, fun _ _ => rfl⟩
  | ok resp =>
    simp only
    cases checkResponse resp with
    | some err => exact ⟨cache, rfl, fun _ _ => rfl⟩
    | none =>
      simp only
      by_cases h200 : resp.StatusCode = 200
      · rw [if_pos h200]
        refine ⟨cache.store (queryKey path itemId page) resp.etag, ?_, ?_⟩
        · cases decode resp.Body <;> rfl
        · intro key hkey
          unfold eTagsMap.store
          rw [if_neg hkey]
      · rw [if_neg h200]
        exact ⟨cache, rfl, fun _ _ => rfl⟩

theorem executeQueries_frame (others : List queryCall) (cache : eTagsMap) (key : String)
    (hkey : ∀ call ∈ others, queryKey call.path call.itemId call.page ≠ key) :
    ∃ after, executeQueries others [some cache] = [some after] ∧ after key = cache key := by
  induction others generalizing cache with
  | nil => exact ⟨cache, rfl, rfl⟩
  | cons call rest ih =>
    obtain ⟨mid, hmid, hframe⟩ := executeQuery_frame call.client (fun _ => Except.ok ())
      call.path call.itemId call.page cache
    obtain ⟨after, hafter, hsame⟩ := ih mid (fun c hc => hkey c (List.mem_cons_of_mem _ hc))
    refine ⟨after, ?_, ?_⟩
    · unfold executeQueries
      rw [hmid, hafter]
    · rw [hsame]
      exact hframe key (fun h => hkey call (List.mem_cons_self _ _) h.symm)

/-- C11: when a call of `executeQuery` with a cache receives a response with status 200
that carries the revalidation token `T`, the next call for the same path, resource id and
page on that cache sends a request whose `If-None-Match` header is `T`, whatever calls
for another URL (`path ++ itemId`) or another page were made on the cache in between and
whatever they were answered; a call has the key of this one only if it has its URL and
its page. -/
theorem executeQuery_roundtrip {α β : Type}
    (client1 client2 : httpRequest → Except GoError httpResponse)
    (decode1 : String → Except GoError α) (decode2 : String → Except GoError β)
    (path itemId : String) (page : Int) (cache : eTagsMap) (resp : httpResponse)
    (T : String) (between : List queryCall)
    (hresp : client1 (newRequest path itemId page
      (loadETag [some cache] (queryKey path itemId page))) = .ok resp)
    (h200 : resp.StatusCode = 200) (hT : resp.etag = T)
    (hbetween : ∀ call ∈ between,
      call.path ++ call.itemId ≠ path ++ itemId ∨ call.page ≠ page) :
    (executeQuery client2 decode2 path itemId page
        (executeQueries between
          (executeQuery client1 decode1 path itemId page [some cache]).eTagsA)).sent =
      some (newRequest path itemId page T) ∧
    (newRequest path itemId page T).ifNoneMatch = T ∧
    (∀ path2 itemId2 page2, queryKey path2 itemId2 page2 = queryKey path itemId page ↔
      path2 ++ itemId2 = path ++ itemId ∧ page2 = page) := by
  rw [executeQuery_ok_200 client1 decode1 path itemId page cache resp hresp h200]
  obtain ⟨after, hafter, hsame⟩ := executeQueries_frame between
    (cache.store (queryKey path itemId page) resp.etag) (queryKey path itemId page)
    (fun call hcall h => by
      have := (queryKey_eq_iff _ _ _ _ _ _).mp h
      rcases hbetween call hcall with h1 | h2
      · exact h1 this.1
      · exact h2 this.2)
  rw [hafter, executeQuery_sent client2 decode2 path itemId page _ (by simp)]
  refine ⟨?_, rfl, fun path2 itemId2 page2 => queryKey_eq_iff _ _ _ _ _ _⟩
  simp only [loadETag, List.head?, hsame]
  simp [eTagsMap.store, hT]

/-- C12: a call of `executeQuery` whose response has a status below 400 other than 200
returns no error, decodes nothing, and leaves the revalidation cache as it was. -/
theorem executeQuery_not_modified {α : Type}
    (client : httpRequest → Except GoError httpResponse)
    (decode : String → Except GoError α) (path itemId : String) (page : Int)
    (eTagsA : List (Option eTagsMap)) (resp : httpResponse)
    (hlen : eTagsA.length ≤ 1)
    (hresp : client (newRequest path itemId page
      (loadETag eTagsA (queryKey path itemId page))) = .ok resp)
    (hlt : resp.StatusCode < 400) (hne : resp.StatusCode ≠ 200) :
    (executeQuery client decode path itemId page eTagsA).err = none ∧
      (executeQuery client decode path itemId page eTagsA).data = none ∧
      (executeQuery client decode path itemId page eTagsA).eTagsA = eTagsA := by
  unfold executeQuery
  simp only
  rw [if_neg (by omega), hresp]
  simp only
  rw [checkResponse_of_lt resp hlt]
  simp only
  rw [if_neg hne]
  exact ⟨rfl, rfl, rfl⟩

/-- C13: `checkResponse` returns an error exactly for the status codes from 400 on; the
error is `io.EOF` exactly for the status code 404, and for every other status code from
400 on it is an error whose message is the status text of the response. -/
theorem checkResponse_spec (resp : httpResponse) :
    (checkResponse resp ≠ none ↔ 400 ≤ resp.StatusCode) ∧
      (checkResponse resp = some .EOF ↔ resp.StatusCode = 404) ∧
      (400 ≤ resp.StatusCode → resp.StatusCode ≠ 404 →
        checkResponse resp = some (.other resp.Status)) := by
  unfold checkResponse
  by_cases h404 : resp.StatusCode = 404
  · simp [h404]
  · by_cases h400 : resp.StatusCode ≥ 400
    · simp [h404, h400]
    · rw [if_neg h404, if_neg h400]
      refine ⟨?_, ?_, ?_⟩
      · exact ⟨fun h => absurd rfl h, fun h => absurd h h400⟩
      · exact ⟨fun h => Option.noConfusion h, fun h => absurd h h404⟩
      · intro h; exact absurd h h400

/-- An instance of C11: the first fetch of page 1 of the listings of region `10000002`
on an empty cache gets `freshResponse`; then page 2 of the same region and page 1 of the
items of listing `144` are fetched and answered with other tokens; the second fetch of
page 1 of the region still sends the token `v1`. -/
theorem executeQuery_roundtrip_witness :
    (executeQuery (fun _ => .ok (testResponse 304)) (fun _ => Except.ok ()) apiContracts
        "10000002" 1
        (executeQueries otherCalls
          (executeQuery (fun _ => .ok freshResponse) (fun _ => Except.ok ()) apiContracts
            "10000002" 1 [some emptyETags]).eTagsA)).sent =
      some (newRequest apiContracts "10000002" 1 "v1") ∧
    (queryKey apiContracts "10000002" 2 = queryKey apiContracts "10000002" 1 ↔
      apiContracts ++ "10000002" = apiContracts ++ "10000002" ∧ (2 : Int) = 1) ∧
    queryKey apiContracts "10000002" 1 = "/latest/contracts/public/10000002?1" :=
  have h := executeQuery_roundtrip (fun _ => .ok freshResponse)
    (fun _ => .ok (testResponse 304)) (fun _ => Except.ok ()) (fun _ => Except.ok ())
    apiContracts "10000002" 1 emptyETags freshResponse "v1" otherCalls rfl rfl rfl
    (by decide)
  ⟨h.1, h.2.2 apiContracts "10000002" 2, by decide!⟩

/-- An instance of C12: a fetch that is answered with status 304 on a cache that holds
the token `v1` for its key. -/
theorem executeQuery_not_modified_witness :
    (executeQuery (fun _ => .ok (testResponse 304)) (fun _ => Except.ok ()) apiContracts
        "10000002" 1
        [some (emptyETags.store (queryKey apiContracts "10000002" 1) "v1")]).err = none ∧
      (executeQuery (fun _ => .ok (testResponse 304)) (fun _ => Except.ok ()) apiContracts
        "10000002" 1
        [some (emptyETags.store (queryKey apiContracts "10000002" 1) "v1")]).data = none ∧
      (executeQuery (fun _ => .ok (testResponse 304)) (fun _ => Except.ok ()) apiContracts
        "10000002" 1
        [some (emptyETags.store (queryKey apiContracts "10000002" 1) "v1")]).eTagsA =
        [some (emptyETags.store (queryKey apiContracts "10000002" 1) "v1")] :=
  executeQuery_not_modified (fun _ => .ok (testResponse 304)) (fun _ => Except.ok ())
    apiContracts "10000002" 1 _ (testResponse 304) (by decide) rfl (by decide) (by decide)

/-- The cases `404 Not Found` and `500 Internal Server Error` of `Test_checkResponse` as
instances of C13. -/
theorem checkResponse_spec_witness :
    checkResponse (testResponse 404) = some .EOF ∧
      checkResponse (testResponse 500) = some (.other (testResponse 500).Status) ∧
      ¬ (checkResponse (testResponse 304) ≠ none) :=
  ⟨(checkResponse_spec (testResponse 404)).2.1.mpr rfl,
    (checkResponse_spec (testResponse 500)).2.2 (by decide) (by decide),
    fun h => absurd ((checkResponse_spec (testResponse 304)).1.mp h) (by decide)⟩

/-! ## Properties of `getItemTypeFromString` -/

theorem fieldsFrom_clean (cs cur : List Char) (hcur : ∀ c ∈ cur, isSpace c = false) :
    ∀ f ∈ fieldsFrom cs cur, f ≠ [] ∧ ∀ c ∈ f, isSpace c = false := by
  induction cs generalizing cur with
  | nil =>
    intro f hf
    unfold fieldsFrom at hf
    by_cases h : cur = []
    · rw [if_pos h] at hf; cases hf
    · rw [if_neg h, List.mem_singleton] at hf
      subst hf
      exact ⟨h, hcur⟩
  | cons a rest ih =>
    intro f hf
    unfold fieldsFrom at hf
    by_cases hsp : isSpace a = true
    · rw [if_pos hsp] at hf
      by_cases h : cur = []
      · rw [if_pos h] at hf
        exact ih [] (by simp) f hf
      · rw [if_neg h] at hf
        rcases List.mem_cons.mp hf with rfl | hf
        · exact ⟨h, hcur⟩
        · exact ih [] (by simp) f hf
    · rw [if_neg hsp] at hf
      refine ih (cur ++ [a]) ?_ f hf
      intro c hc
      rcases List.mem_append.mp hc with hc | hc
      · exact hcur c hc
      · rw [List.mem_singleton] at hc
        subst hc
        simpa using hsp

theorem fields_clean (s : List Char) :
    ∀ f ∈ fields s, f ≠ [] ∧ ∀ c ∈ f, isSpace c = false :=
  fieldsFrom_clean s [] (by simp)

theorem join_head (fs : List (List Char)) (sep : List Char) (hne : fs ≠ [])
    (hclean : ∀ f ∈ fs, f ≠ [] ∧ ∀ c ∈ f, isSpace c = false) :
    ∃ h t, join fs sep = h :: t ∧ isSpace h = false := by
  cases fs with
  | nil => exact absurd rfl hne
  | cons a rest =>
    obtain ⟨ha, hsp⟩ := hclean a (List.mem_cons_self _ _)
    cases a with
    | nil => exact absurd rfl ha
    | cons h a' =>
      cases rest with
      | nil => exact ⟨h, a', rfl, hsp h (List.mem_cons_self _ _)⟩
      | cons b r =>
        exact ⟨h, a' ++ sep ++ join (b :: r) sep, by simp [join],
          hsp h (List.mem_cons_self _ _)⟩

theorem join_last (fs : List (List Char)) (sep : List Char) (hne : fs ≠ [])
    (hclean : ∀ f ∈ fs, f ≠ [] ∧ ∀ c ∈ f, isSpace c = false) :
    ∃ i x, join fs sep = i ++ [x] ∧ isSpace x = false := by
  induction fs with
  | nil => exact absurd rfl hne
  | cons a rest ih =>
    obtain ⟨ha, hsp⟩ := hclean a (List.mem_cons_self _ _)
    cases rest with
    | nil =>
      refine ⟨a.dropLast, a.getLast ha, ?_, hsp _ (List.getLast_mem ha)⟩
      simp only [join]
      exact (List.dropLast_append_getLast ha).symm
    | cons b r =>
      obtain ⟨i, x, hix, hx⟩ := ih (by simp) (fun f hf => hclean f (List.mem_cons_of_mem _ hf))
      refine ⟨a ++ sep ++ i, x, ?_, hx⟩
      simp only [join, hix, List.append_assoc]

theorem trimSpace_join (fs : List (List Char)) (sep : List Char)
    (hclean : ∀ f ∈ fs, f ≠ [] ∧ ∀ c ∈ f, isSpace c = false) :
    trimSpace (join fs sep) = join fs sep := by
  by_cases hne : fs = []
  · subst hne; rfl
  · obtain ⟨h, t, hht, hh⟩ := join_head fs sep hne hclean
    obtain ⟨i, x, hix, hx⟩ := join_last fs sep hne hclean
    unfold trimSpace
    have hd : (join fs sep).dropWhile isSpace = join fs sep := by
      rw [hht, List.dropWhile_cons_of_neg (by simp [hh])]
    rw [hd, hix, List.rdropWhile_concat_neg _ _ _ (by simp [hx])]

theorem parseDigits_iff (cs : List Char) (n m : Nat) :
    parseDigits cs n = some m ↔
      ((∀ c ∈ cs, 48 ≤ c.toNat ∧ c.toNat ≤ 57) ∧
        m = cs.foldl (fun n c => n * 10 + (c.toNat - 48)) n) := by
  induction cs generalizing n with
  | nil =>
    simp only [parseDigits, Option.some.injEq, List.not_mem_nil, false_implies, implies_true,
      List.foldl_nil, true_and]
    exact eq_comm
  | cons a rest ih =>
    unfold parseDigits digitValue
    by_cases hd : 48 ≤ a.toNat ∧ a.toNat ≤ 57
    · rw [if_pos hd]
      simp only [List.foldl_cons]
      rw [ih]
      constructor
      · rintro ⟨h1, h2⟩
        refine ⟨?_, h2⟩
        intro c hc
        rcases List.mem_cons.mp hc with rfl | hc
        · exact hd
        · exact h1 c hc
      · rintro ⟨h1, h2⟩
        exact ⟨fun c hc => h1 c (List.mem_cons_of_mem _ hc), h2⟩
    · rw [if_neg hd]
      constructor
      · intro h; cases h
      · rintro ⟨h1, _⟩
        exact absurd (h1 a (List.mem_cons_self _ _)) hd

theorem parseUint_iff (cs : List Char) (m : Nat) :
    parseUint cs = some m ↔
      (cs ≠ [] ∧ (∀ c ∈ cs, 48 ≤ c.toNat ∧ c.toNat ≤ 57) ∧ m = decimalValue cs) := by
  cases cs with
  | nil =>
    constructor
    · intro h; cases h
    · rintro ⟨h, _⟩; exact absurd rfl h
  | cons a rest =>
    unfold parseUint
    rw [parseDigits_iff]
    constructor
    · rintro ⟨h1, h2⟩
      exact ⟨by simp, h1, h2⟩
    · rintro ⟨_, h1, h2⟩
      exact ⟨h1, h2⟩

theorem char_eq_of_toNat (c : Char) (n : Nat) (h : c.toNat = n) : c = Char.ofNat n := by
  rw [← h]
  exact (Char.ofNat_toNat c).symm

theorem parseInt_sound (f : List Char) (z : Int) (h : parseInt f = some z) :
    isInt64Literal f z := by
  cases f with
  | nil => cases h
  | cons c rest =>
    unfold parseInt at h
    simp only at h
    by_cases hp : c.toNat = 43
    · rw [if_pos hp] at h
      cases hu : parseUint rest with
      | none => rw [hu] at h; cases h
      | some un =>
        rw [hu] at h
        simp only [Option.some_bind] at h
        by_cases hr : un < 9223372036854775808
        · rw [if_pos hr] at h
          cases h
          obtain ⟨hne, hdig, hval⟩ := (parseUint_iff rest un).mp hu
          refine ⟨[Char.ofNat 43], rest, ?_, Or.inr (Or.inl rfl), hne, hdig, ?_, ?_, ?_⟩
          · rw [char_eq_of_toNat c 43 hp]; rfl
          · rw [if_neg (by decide), hval]
          · omega
          · omega
        · rw [if_neg hr] at h; cases h
    · rw [if_neg hp] at h
      by_cases hm : c.toNat = 45
      · rw [if_pos hm] at h
        cases hu : parseUint rest with
        | none => rw [hu] at h; cases h
        | some un =>
          rw [hu] at h
          simp only [Option.some_bind] at h
          by_cases hr : un ≤ 9223372036854775808
          · rw [if_pos hr] at h
            cases h
            obtain ⟨hne, hdig, hval⟩ := (parseUint_iff rest un).mp hu
            refine ⟨[Char.ofNat 45], rest, ?_, Or.inr (Or.inr rfl), hne, hdig, ?_, ?_, ?_⟩
            · rw [char_eq_of_toNat c 45 hm]; rfl
            · rw [if_pos rfl, hval]
            · omega
            · omega
          · rw [if_neg hr] at h; cases h
      · rw [if_neg hm] at h
        cases hu : parseUint (c :: rest) with
        | none => rw [hu] at h; cases h
        | some un =>
          rw [hu] at h
          simp only [Option.some_bind] at h
          by_cases hr : un < 9223372036854775808
          · rw [if_pos hr] at h
            cases h
            obtain ⟨hne, hdig, hval⟩ := (parseUint_iff (c :: rest) un).mp hu
            refine ⟨[], c :: rest, rfl, Or.inl rfl, hne, hdig, ?_, ?_, ?_⟩
            · rw [if_neg (by decide), hval]
            · omega
            · omega
          · rw [if_neg hr] at h; cases h

theorem parseInt_complete (f : List Char) (z : Int) (h : isInt64Literal f z) :
    parseInt f = some z := by
  obtain ⟨sign, digits, hf, hsign, hne, hdig, hz, hlo, hhi⟩ := h
  have hu : parseUint digits = some (decimalValue digits) :=
    (parseUint_iff digits _).mpr ⟨hne, hdig, rfl⟩
  rcases hsign with rfl | rfl | rfl
  · rw [if_neg (by decide)] at hz
    cases digits with
    | nil => exact absurd rfl hne
    | cons c rest =>
      have hc := hdig c (List.mem_cons_self _ _)
      simp only [List.nil_append] at hf
      subst hf
      unfold parseInt
      simp only
      rw [if_neg (by omega), if_neg (by omega), hu]
      simp only [Option.some_bind]
      rw [if_pos (by omega), hz]
  · rw [if_neg (by decide)] at hz
    subst hf
    show parseInt (Char.ofNat 43 :: digits) = some z
    unfold parseInt
    simp only
    rw [if_pos (by decide), hu]
    simp only [Option.some_bind]
    rw [if_pos (by omega), hz]
  · rw [if_pos rfl] at hz
    subst hf
    show parseInt (Char.ofNat 45 :: digits) = some z
    unfold parseInt
    simp only
    rw [if_neg (by decide), if_pos (by decide), hu]
    simp only [Option.some_bind]
    rw [if_pos (by omega), hz]

/-- C14: `getItemTypeFromString` succeeds exactly when the line has at least one
whitespace-separated field and the first field is a valid base-10 signed 64-bit integer;
on success `typeId` is that integer and `typeName` is the remaining fields joined by
single spaces; on failure the result is an error together with the zero `itemType`. The
fields are non-empty and free of white space. -/
theorem getItemTypeFromString_spec (s : String) :
    ((getItemTypeFromString s).2 = none ↔
        ∃ f0 rest id, fields s.data = f0 :: rest ∧ isInt64Literal f0 id) ∧
      (∀ f0 rest id, fields s.data = f0 :: rest → isInt64Literal f0 id →
        getItemTypeFromString s =
          ({ typeId := id, typeName := String.mk (join rest [Char.ofNat 32]) }, none)) ∧
      ((getItemTypeFromString s).2 ≠ none →
        (getItemTypeFromString s).1 = { typeId := 0, typeName := "" }) ∧
      (∀ f ∈ fields s.data, f ≠ [] ∧ ∀ c ∈ f, isSpace c = false) := by
  have hsucc : ∀ f0 rest id, fields s.data = f0 :: rest → isInt64Literal f0 id →
      getItemTypeFromString s =
        ({ typeId := id, typeName := String.mk (join rest [Char.ofNat 32]) }, none) := by
    intro f0 rest id hf hid
    have hclean : ∀ f ∈ rest, f ≠ [] ∧ ∀ c ∈ f, isSpace c = false := by
      intro f hm
      exact fields_clean s.data f (by rw [hf]; exact List.mem_cons_of_mem _ hm)
    unfold getItemTypeFromString
    rw [hf]
    simp only
    rw [parseInt_complete f0 id hid]
    simp only
    rw [trimSpace_join rest _ hclean]
  refine ⟨?_, hsucc, ?_, fields_clean s.data⟩
  · constructor
    · intro h
      unfold getItemTypeFromString at h
      cases hf : fields s.data with
      | nil => rw [hf] at h; cases h
      | cons f0 rest =>
        rw [hf] at h
        simp only at h
        cases hp : parseInt f0 with
        | none => rw [hp] at h; cases h
        | some id => exact ⟨f0, rest, id, rfl, parseInt_sound f0 id hp⟩
    · rintro ⟨f0, rest, id, hf, hid⟩
      rw [hsucc f0 rest id hf hid]
  · intro h
    unfold getItemTypeFromString at h ⊢
    cases hf : fields s.data with
    | nil => rfl
    | cons f0 rest =>
      rw [hf] at h
      simp only at h ⊢
      cases hp : parseInt f0 with
      | none => rfl
      | some id => rw [hp] at h; exact absurd rfl h

/-- The cases `check spaces` and `wrong int format` of `Test_getItemTypeFromString` as
instances of C14. -/
theorem getItemTypeFromString_spec_witness :
    getItemTypeFromString " 1234567    Some Item Name " =
        ({ typeId := 1234567, typeName := "Some Item Name" }, none) ∧
      (getItemTypeFromString "1234567Some Item Name ").1 = { typeId := 0, typeName := "" } :=
  ⟨(getItemTypeFromString_spec " 1234567    Some Item Name ").2.1
      "1234567".data ["Some".data, "Item".data, "Name".data] 1234567 (by decide)
      (parseInt_sound _ _ (by decide)),
    (getItemTypeFromString_spec "1234567Some Item Name ").2.2.1 (by decide)⟩

/-! ## The first polling cycle -/

theorem monitorTickLoop_false_logs (mon : contract → List registrySignal)
    (conCh : List contract) (st : monitorState) :
    (monitorTickLoop mon false conCh st).checked = st.checked ∧
      (monitorTickLoop mon false conCh st).chSignal = st.chSignal := by
  induction conCh generalizing st with
  | nil => exact ⟨rfl, rfl⟩
  | cons c rest ih =>
    unfold monitorTickLoop
    by_cases hpub : isPublicItemExchangeContract c = true
    · rw [if_pos hpub]
      simp only [Bool.and_false, Bool.false_eq_true, if_false]
      exact ih _
    · rw [if_neg hpub]
      exact ih st

theorem monitorTickLoop_db_mono (mon : contract → List registrySignal)
    (checkContract : Bool) (conCh : List contract) (st : monitorState) (x : contract)
    (h : isExistsContractCheckDB st.db x = true) :
    isExistsContractCheckDB (monitorTickLoop mon checkContract conCh st).db x = true := by
  induction conCh generalizing st with
  | nil => exact h
  | cons c rest ih =>
    unfold monitorTickLoop
    by_cases hpub : isPublicItemExchangeContract c = true
    · rw [if_pos hpub]
      have hgrow : isExistsContractCheckDB (isNewlyCreatedContractCheckDB st.db c).2 x = true :=
        (isExists_after_isNewly st.db c x).mpr (Or.inr h)
      by_cases hnew : ((isNewlyCreatedContractCheckDB st.db c).1 && checkContract) = true
      · simp only [hnew, if_true]
        exact ih _ hgrow
      · simp only [hnew, if_false, Bool.false_eq_true]
        exact ih _ hgrow
    · rw [if_neg hpub]
      exact ih st h

theorem monitorTickLoop_records (mon : contract → List registrySignal)
    (checkContract : Bool) (conCh : List contract) (st : monitorState) (c : contract)
    (hmem : c ∈ conCh) (hpub : isPublicItemExchangeContract c = true) :
    isExistsContractCheckDB (monitorTickLoop mon checkContract conCh st).db c = true := by
  induction conCh generalizing st with
  | nil => cases hmem
  | cons a rest ih =>
    rcases List.mem_cons.mp hmem with rfl | hmem
    · unfold monitorTickLoop
      rw [if_pos hpub]
      have hin : isExistsContractCheckDB (isNewlyCreatedContractCheckDB st.db c).2 c = true :=
        (isExists_after_isNewly st.db c c).mpr (Or.inl rfl)
      by_cases hnew : ((isNewlyCreatedContractCheckDB st.db c).1 && checkContract) = true
      · simp only [hnew, if_true]
        exact monitorTickLoop_db_mono mon checkContract rest _ c hin
      · simp only [hnew, if_false, Bool.false_eq_true]
        exact monitorTickLoop_db_mono mon checkContract rest _ c hin
    · unfold monitorTickLoop
      by_cases hpa : isPublicItemExchangeContract a = true
      · rw [if_pos hpa]
        by_cases hnew : ((isNewlyCreatedContractCheckDB st.db a).1 && checkContract) = true
        · simp only [hnew, if_true]
          exact ih _ hmem
        · simp only [hnew, if_false, Bool.false_eq_true]
          exact ih _ hmem
      · rw [if_neg hpa]
        exact ih st hmem

theorem first_cycle_later (mon : contract → List registrySignal)
    (conCh : List contract) (cycles : List (Bool × List contract)) (db0 : List contract) :
    ∀ c ∈ conCh, isPublicItemExchangeContract c = true →
      ∀ x ∈ (monitorTicks mon ((false, conCh) :: cycles)
        { db := db0, checked := [], chSignal := [] }).checked, x.Id ≠ c.Id := by
  intro c hc hpub x hx hid
  have hfirst := monitorTickLoop_false_logs mon conCh
    { db := db0, checked := [], chSignal := [] }
  have hrec := monitorTickLoop_records mon false conCh
    { db := db0, checked := [], chSignal := [] } c hc hpub
  have hinv := monitorTicks_invariant mon
    (monitorTickLoop mon false conCh { db := db0, checked := [], chSignal := [] }).db cycles
    (monitorTickLoop mon false conCh { db := db0, checked := [], chSignal := [] })
    (by rw [hfirst.1]; simp) (by rw [hfirst.1]; simp) (by rw [hfirst.1]; simp)
    (fun _ hy => hy)
  have hx2 : x ∈ (monitorTicks mon cycles
      (monitorTickLoop mon false conCh { db := db0, checked := [], chSignal := [] })).checked :=
    hx
  have hfalse := hinv.2 x hx2
  rw [isExistsContractCheckDB_congr _ x c hid, hrec] at hfalse
  cases hfalse

/-- C17: a `monitorTick` cycle with `checkContract = false` passes no listing to
`monCheckContract` and sends no signal, yet after it every qualifying listing it
received is in the dedup store; so when it is the first cycle of a run, as in the loop of
`startMonitoring`, no listing with the id of such a listing is passed to
`monCheckContract` in any later cycle. -/
theorem first_cycle_records (mon : contract → List registrySignal)
    (conCh : List contract) (cycles : List (Bool × List contract)) (st : monitorState)
    (db0 : List contract) :
    (monitorTickLoop mon false conCh st).checked = st.checked ∧
      (monitorTickLoop mon false conCh st).chSignal = st.chSignal ∧
      (∀ c ∈ conCh, isPublicItemExchangeContract c = true →
        isExistsContractCheckDB (monitorTickLoop mon false conCh st).db c = true) ∧
      (∀ c ∈ conCh, isPublicItemExchangeContract c = true →
        ∀ x ∈ (monitorTicks mon ((false, conCh) :: cycles)
          { db := db0, checked := [], chSignal := [] }).checked, x.Id ≠ c.Id) ∧
      (∀ later : List (List contract), ∀ c ∈ conCh,
        isPublicItemExchangeContract c = true →
        ∀ x ∈ (startMonitoringLoop mon (conCh :: later) db0).checked, x.Id ≠ c.Id) := by
  obtain ⟨hchk, hsig⟩ := monitorTickLoop_false_logs mon conCh st
  have hlater : ∀ cycles : List (Bool × List contract), ∀ c ∈ conCh,
      isPublicItemExchangeContract c = true →
      ∀ x ∈ (monitorTicks mon ((false, conCh) :: cycles)
        { db := db0, checked := [], chSignal := [] }).checked, x.Id ≠ c.Id := by
    intro cycles
    exact first_cycle_later mon conCh cycles db0
  exact ⟨hchk, hsig, fun c hc hpub => monitorTickLoop_records mon false conCh st c hc hpub,
    hlater cycles, fun later => hlater (later.map (fun conCh => (true, conCh)))⟩

/-- An instance of C17: the first cycle receives the listings 1 and 2, the second cycle the
listings 1 and 3; listing 1 is in the store after the first cycle and no listing with its
id is passed to `monCheckContract`. -/
theorem first_cycle_records_witness :
    isExistsContractCheckDB
        (monitorTickLoop (fun c => [testSignal c.Id]) false
          [testContract 1 0 itemExchange, testContract 2 0 itemExchange]
          { db := [], checked := [], chSignal := [] }).db
        (testContract 1 0 itemExchange) = true ∧
      (∀ x ∈ (monitorTicks (fun c => [testSignal c.Id])
          [(false, [testContract 1 0 itemExchange, testContract 2 0 itemExchange]),
            (true, [testContract 1 0 itemExchange, testContract 3 0 itemExchange])]
          { db := [], checked := [], chSignal := [] }).checked,
        x.Id ≠ (testContract 1 0 itemExchange).Id) ∧
      (monitorTicks (fun c => [testSignal c.Id])
          [(false, [testContract 1 0 itemExchange, testContract 2 0 itemExchange]),
            (true, [testContract 1 0 itemExchange, testContract 3 0 itemExchange])]
          { db := [], checked := [], chSignal := [] }).checked =
        [testContract 3 0 itemExchange] :=
  ⟨(first_cycle_records (fun c => [testSignal c.Id])
      [testContract 1 0 itemExchange, testContract 2 0 itemExchange]
      [(true, [testContract 1 0 itemExchange, testContract 3 0 itemExchange])]
      { db := [], checked := [], chSignal := [] } []).2.2.1
      (testContract 1 0 itemExchange) (by simp) (by decide),
    (first_cycle_records (fun c => [testSignal c.Id])
      [testContract 1 0 itemExchange, testContract 2 0 itemExchange]
      [(true, [testContract 1 0 itemExchange, testContract 3 0 itemExchange])]
      { db := [], checked := [], chSignal := [] } []).2.2.2.1
      (testContract 1 0 itemExchange) (by simp) (by decide),
    by decide!⟩


end JitaScan
